import Mathlib

/-!
Verification of the daily-notes digest plugin (date-driven idempotent
summarization pipeline).  The TypeScript source is shallowly embedded:
JavaScript strings are Lean `String`s, the string methods used by the
plugin (`trim`, `split`, `replaceAll`, `padStart`, template-literal
coercion of `undefined`) are modelled explicitly, the Obsidian vault
adapter is modelled as a `Vault` record (files and folders), and the
fallible LLM transport is an `Except` value supplied by the environment.
-/

namespace Digest

/-- ECMAScript whitespace characters relevant to this code base (the
ASCII white space characters plus NBSP, BOM and the line separators);
`String.prototype.trim` strips exactly these from both ends. -/
def wsChar (c : Char) : Bool :=
  c = ' ' || c = '\t' || c = '\n' || c = '\r' || c = '\x0b' || c = '\x0c' ||
  c = ' ' || c = '﻿'

/-- `trim` on the character list: drop whitespace from the front, then
from the back (via reverse). -/
def jsTrimList (l : List Char) : List Char :=
  ((l.dropWhile wsChar).reverse.dropWhile wsChar).reverse

/-- Model of JavaScript `String.prototype.trim`. -/
def jsTrim (s : String) : String :=
  String.mk (jsTrimList s.data)

/-- `value.replace(/\\/g, "/")`: backslashes become forward slashes. -/
def mapSlash (l : List Char) : List Char :=
  l.map (fun c => if c = '\\' then '/' else c)

/-- `value.replace(/\/+/g, "/")`: collapse each run of slashes to one.
`prev` is the character last emitted (if any). -/
def collapseSlashAux : Option Char → List Char → List Char
  | _, [] => []
  | prev, c :: rest =>
    if c = '/' && prev = some '/' then collapseSlashAux prev rest
    else c :: collapseSlashAux (some c) rest

/-- The state carried by `collapseSlashAux` after consuming a list:
the last emitted character, or the initial state if nothing was emitted. -/
def collapseCarry : Option Char → List Char → Option Char
  | prev, [] => prev
  | prev, c :: rest =>
    if c = '/' && prev = some '/' then collapseCarry prev rest
    else collapseCarry (some c) rest

/-- `normalizePath` as provided by the repository's obsidian shim:
backslashes become slashes, runs of slashes collapse to one. -/
def normalizePath (s : String) : String :=
  String.mk (collapseSlashAux none (mapSlash s.data))

/-- `String.prototype.split` with a single-character separator:
accumulate the current segment (reversed) and emit it at each separator. -/
def splitCharAux (sep : Char) (acc : List Char) : List Char → List (List Char)
  | [] => [acc.reverse]
  | c :: rest =>
    if c = sep then acc.reverse :: splitCharAux sep [] rest
    else splitCharAux sep (c :: acc) rest

/-- Model of JavaScript `s.split(sep)` for a one-character separator. -/
def jsSplit (sep : Char) (s : String) : List String :=
  (splitCharAux sep [] s.data).map String.mk

/-- Model of `array.join(sep)` for an array of strings. -/
def jsJoin (sep : String) : List String → String
  | [] => ""
  | [x] => x
  | x :: y :: rest => x ++ sep ++ jsJoin sep (y :: rest)

/-- `filePath.split("/").pop() ?? ""`: the segment after the last slash
(the whole string if there is no slash). -/
def lastSegment (p : String) : String :=
  (jsSplit '/' p).getLastD ""

/-- The suffix of a character list after its last occurrence of `sep`
(the whole list if `sep` does not occur). -/
def afterLastSep (sep : Char) (l : List Char) : List Char :=
  (l.reverse.takeWhile (fun c => c ≠ sep)).reverse

/-- The parent directory of a path: everything before the last slash. -/
def parentDir (p : String) : String :=
  String.mk ((p.data.reverse.dropWhile (fun c => c ≠ '/')).drop 1).reverse

/-- Boolean list prefix test (written out to keep the development
self-contained). -/
def startsWithL : List Char → List Char → Bool
  | [], _ => true
  | _ :: _, [] => false
  | p :: ps, c :: cs => p = c && startsWithL ps cs

/-- Model of JavaScript `String.prototype.replaceAll` with a string
pattern: scan left to right, replacing each non-overlapping occurrence.
The fuel argument (instantiated with the subject length) makes the
recursion structural; the plugin only ever calls this with the fixed
non-empty pattern `\x7b\x7bdate\x7d\x7d`. -/
def replaceAllAux (pat rep : List Char) : Nat → List Char → List Char
  | _, [] => []
  | 0, l => l
  | fuel + 1, c :: rest =>
    if startsWithL pat (c :: rest) && !pat.isEmpty then
      rep ++ replaceAllAux pat rep fuel (rest.drop (pat.length - 1))
    else
      c :: replaceAllAux pat rep fuel rest

/-- Model of JavaScript `s.replaceAll(pat, rep)`. -/
def jsReplaceAll (s pat rep : String) : String :=
  String.mk (replaceAllAux pat.data rep.data s.data.length s.data)

/-- Model of `str.padStart(2, "0")`. -/
def padStart2 (s : String) : String :=
  if s.length < 2 then String.mk (List.replicate (2 - s.length) '0') ++ s else s

/-- JavaScript template-literal coercion of a possibly-`undefined`
string: `undefined` interpolates as the text "undefined". -/
def optStr : Option String → String
  | some s => s
  | none => "undefined"

/-- A run of the characters of a string with no double slash
(`normalizePath` output shape). -/
def noDoubleSlashB : List Char → Bool
  | [] => true
  | [_] => true
  | a :: b :: rest => !(a = '/' && b = '/') && noDoubleSlashB (b :: rest)

/-! ## Data model: settings, dates and paths (from `src/settings` usage
and the date helpers of the plugin class). -/

/-- The plugin settings object (`DailyNotesDigestSettings`). -/
structure Settings where
  dailyNotesFolder : String
  outputFolder : String
  llmEndpoint : String
  apiKey : String
  model : String
  promptTemplate : String
  checkIntervalMinutes : Nat
  sortDailyNotesAndSummaries : Bool
  lastProcessedDate : String
deriving DecidableEq

/-- A JavaScript `Date` restricted to the observations the plugin makes:
local year, month (1-based, as `getMonth() + 1` produces), day of month,
and hour of day.  The hour is carried to show that path resolution does
not depend on the time of day. -/
structure JsDate where
  year : Nat
  month : Nat
  day : Nat
  hour : Nat
deriving DecidableEq

/-- `getLocalDateStamp`: `YYYY-MM-DD` from the local date fields. -/
def getLocalDateStamp (d : JsDate) : String :=
  toString d.year ++ "-" ++ padStart2 (toString d.month) ++ "-" ++
    padStart2 (toString d.day)

def isLeapYear (y : Nat) : Bool :=
  (y % 4 = 0 && y % 100 ≠ 0) || y % 400 = 0

def daysInMonth (year month : Nat) : Nat :=
  if month = 2 then (if isLeapYear year then 29 else 28)
  else if month = 4 || month = 6 || month = 9 || month = 11 then 30
  else 31

/-- JavaScript `d.setDate(d.getDate() - 1)`: calendar-correct previous
day, rolling over month and year boundaries (day 0 selects the last day
of the previous month). -/
def prevCalendarDay (d : JsDate) : JsDate :=
  if d.day > 1 then { d with day := d.day - 1 }
  else if d.month > 1 then
    { d with month := d.month - 1, day := daysInMonth d.year (d.month - 1) }
  else
    { d with year := d.year - 1, month := 12, day := 31 }

/-- `getYesterdayStamp`: the stamp of the previous calendar day of `now`. -/
def getYesterdayStamp (now : JsDate) : String :=
  getLocalDateStamp (prevCalendarDay now)

/-- Lexicographic comparison of character lists by code point — the
semantics of JavaScript string `<`. -/
def charListLt : List Char → List Char → Bool
  | [], [] => false
  | [], _ :: _ => true
  | _ :: _, [] => false
  | a :: as, b :: bs =>
    a.val < b.val || (a = b && charListLt as bs)

/-- `isDateStampBefore`: plain lexicographic string comparison. -/
def isDateStampBefore (a b : String) : Bool :=
  charListLt a.data b.data

/-- `getDateParts`: `const [year, month] = dateStamp.split("-")`.
JavaScript array destructuring yields `undefined` for a missing element,
modelled by `Option`. -/
def getDateParts (dateStamp : String) : Option String × Option String :=
  let parts := jsSplit '-' dateStamp
  (parts.get? 0, parts.get? 1)

/-- `getDailyNotePath`: nested `{folder}/{year}/{month}/{day}.md` when
sorting is enabled and the day is not today, flat otherwise.  The
wall-clock read `new Date()` inside the function is the `now` argument. -/
def getDailyNotePath (s : Settings) (now : JsDate) (dateStamp : String) : String :=
  if s.sortDailyNotesAndSummaries && dateStamp ≠ getLocalDateStamp now then
    normalizePath (s.dailyNotesFolder ++ "/" ++ optStr (getDateParts dateStamp).1 ++
      "/" ++ optStr (getDateParts dateStamp).2 ++ "/" ++ dateStamp ++ ".md")
  else
    normalizePath (s.dailyNotesFolder ++ "/" ++ dateStamp ++ ".md")

/-- `getSummaryPath`: nested `{folder}/{year}/{month}/{day}_summary.md`
when sorting is enabled and the day is strictly before yesterday, flat
otherwise. -/
def getSummaryPath (s : Settings) (now : JsDate) (dateStamp : String) : String :=
  if s.sortDailyNotesAndSummaries then
    if isDateStampBefore dateStamp (getYesterdayStamp now) then
      normalizePath (s.outputFolder ++ "/" ++ optStr (getDateParts dateStamp).1 ++
        "/" ++ optStr (getDateParts dateStamp).2 ++ "/" ++ dateStamp ++ "_summary.md")
    else
      normalizePath (s.outputFolder ++ "/" ++ dateStamp ++ "_summary.md")
  else
    normalizePath (s.outputFolder ++ "/" ++ dateStamp ++ "_summary.md")

/-! ## Summarization client (`buildMessages`, `callLlm`). -/

inductive Role where
  | system
  | user
deriving DecidableEq

structure ChatMessage where
  role : Role
  content : String
deriving DecidableEq

/-- `buildMessages`: system message from the template with `\x7b\x7bdate\x7d\x7d`
substituted, user message carrying the raw note behind a fixed preamble. -/
def buildMessages (s : Settings) (dateStamp note : String) : List ChatMessage :=
  let instructionContent := jsReplaceAll s.promptTemplate "\x7b\x7bdate\x7d\x7d" dateStamp
  [ { role := Role.system, content := instructionContent },
    { role := Role.user, content := "Daily note for " ++ dateStamp ++ ":\n\n" ++ note } ]

/-- Untyped JSON values, for the duck-typed response parsing. -/
inductive Json where
  | null
  | str (s : String)
  | num (n : Int)
  | boolean (b : Bool)
  | arr (xs : List Json)
  | obj (fields : List (String × Json))

/-- `j?.key` property access (non-objects have no properties). -/
def jsonGet (j : Json) (key : String) : Option Json :=
  match j with
  | Json.obj fields => (fields.find? (fun f => f.1 = key)).map (·.2)
  | _ => none

/-- `j?.[0]` indexing: array element, or the "0" property of an object. -/
def jsonIndex (j : Json) (i : Nat) : Option Json :=
  match j with
  | Json.arr xs => xs.get? i
  | Json.obj fields => (fields.find? (fun f => f.1 = toString i)).map (·.2)
  | _ => none

/-- `response.json?.choices?.[0]?.message?.content` via optional chaining.
`none` at the outer level also models a body that failed to parse. -/
def extractLlmContent (j : Option Json) : Option Json :=
  (((j.bind (jsonGet · "choices")).bind (jsonIndex · 0)).bind
    (jsonGet · "message")).bind (jsonGet · "content")

/-- The observable part of a `requestUrl` response. -/
structure LlmHttpResponse where
  status : Nat
  json : Option Json

/-- The failures `callLlm` can raise: the empty-endpoint configuration
error, a non-200 status, a response without a string at
`choices[0].message.content`, and a transport-level rejection. -/
inductive LlmFailure where
  | configEmptyEndpoint
  | httpStatus (status : Nat)
  | badShape
  | transport (message : String)
deriving DecidableEq

/-- `error instanceof Error ? error.message : String(error)` for the
errors that can reach the `catch` in `processDateIfNeeded`. -/
def llmFailureMessage : LlmFailure → String
  | LlmFailure.configEmptyEndpoint => "LLM endpoint is empty"
  | LlmFailure.httpStatus s => "LLM request failed (" ++ toString s ++ ")"
  | LlmFailure.badShape => "Unexpected LLM response shape"
  | LlmFailure.transport m => m

/-- `callLlm`: throws on a blank endpoint before any network traffic;
otherwise issues one request (second component records that the network
was used), then checks the status and the response shape.  `transport`
is the outcome the network would deliver for this request. -/
def callLlm (s : Settings) (_messages : List ChatMessage)
    (transport : Except String LlmHttpResponse) :
    Except LlmFailure String × Bool :=
  if jsTrim s.llmEndpoint = "" then
    (Except.error LlmFailure.configEmptyEndpoint, false)
  else
    match transport with
    | Except.error m => (Except.error (LlmFailure.transport m), true)
    | Except.ok r =>
      if r.status ≠ 200 then (Except.error (LlmFailure.httpStatus r.status), true)
      else
        match extractLlmContent r.json with
        | some (Json.str content) => (Except.ok content, true)
        | _ => (Except.error LlmFailure.badShape, true)

/-! ## Day Processor (`processDateIfNeeded`). -/

/-- The environment a single `processDateIfNeeded` invocation observes:
the wall clock, the vault adapter's `exists`/`read`, and the network
outcome the transport would deliver. -/
structure Env where
  now : JsDate
  fsExists : String → Bool
  fsRead : String → String
  transport : Except String LlmHttpResponse

/-- The observable effects of one `processDateIfNeeded` invocation.
The function always returns normally (every error is caught inside), so
the result is a plain record: files written, folders passed to
`ensureFolderExists`, whether the network was used, the notices shown,
and the settings state afterwards. -/
structure ProcResult where
  vaultWrites : List (String × String)
  foldersEnsured : List String
  networkCalled : Bool
  notices : List String
  settings : Settings
  settingsSaved : Bool
deriving DecidableEq

/-- `processDateIfNeeded(dateStamp, force)`: existence-check gate, source
lookup, content validation, LLM call, backlink append, persist, record.
All throwing steps sit inside the `try`; the `catch` converts the error
into a single notice, so the embedding is a total function. -/
def processDateIfNeeded (env : Env) (s : Settings) (dateStamp : String)
    (force : Bool) : ProcResult :=
  let outputPath := getSummaryPath s env.now dateStamp
  if !force && env.fsExists outputPath then
    { vaultWrites := [], foldersEnsured := [], networkCalled := false,
      notices := [], settings := s, settingsSaved := false }
  else
    let dailyNotePath := getDailyNotePath s env.now dateStamp
    if !env.fsExists dailyNotePath then
      { vaultWrites := [], foldersEnsured := [], networkCalled := false,
        notices := if force then ["Daily note not found: " ++ dailyNotePath] else [],
        settings := s, settingsSaved := false }
    else
      let noteContents := jsTrim (env.fsRead dailyNotePath)
      if noteContents = "" || noteContents.length < 20 then
        { vaultWrites := [], foldersEnsured := [], networkCalled := false,
          notices := if force then
            ["Daily note is empty or nearly empty: " ++ dailyNotePath] else [],
          settings := s, settingsSaved := false }
      else
        let messages := buildMessages s dateStamp noteContents
        match callLlm s messages env.transport with
        | (Except.error e, called) =>
          { vaultWrites := [], foldersEnsured := [], networkCalled := called,
            notices := ["Daily summary failed: " ++ llmFailureMessage e],
            settings := s, settingsSaved := false }
        | (Except.ok summary, called) =>
          if summary = "" then
            { vaultWrites := [], foldersEnsured := [], networkCalled := called,
              notices := ["LLM returned an empty summary"],
              settings := s, settingsSaved := false }
          else
            let backlink := "\n\n---\n\n[Original note](" ++ dateStamp ++ ")"
            let finalContent := jsTrim summary ++ backlink
            let outputDir := jsJoin "/" ((jsSplit '/' outputPath).dropLast)
            { vaultWrites := [(outputPath, jsTrim finalContent ++ "\n")],
              foldersEnsured := [s.outputFolder, outputDir],
              networkCalled := called,
              notices := ["Daily summary saved: " ++ outputPath],
              settings := { s with lastProcessedDate := dateStamp },
              settingsSaved := true }

/-! ## Archivist (`sortDailyNotes`, `sortSummaries`) and the vault. -/

/-- `filename.match(/^(\d\x7b4\x7d-\d\x7b2\x7d-\d\x7b2\x7d)\.md$/)`:
thirteen characters, digits and hyphens in the date positions, then
`.md`; the capture is the ten-character date stamp. -/
def getDailyNoteDateStamp (filename : String) : Option String :=
  match filename.data with
  | [y1, y2, y3, y4, h1, m1, m2, h2, d1, d2, dot, mc, dc] =>
    if y1.isDigit && y2.isDigit && y3.isDigit && y4.isDigit && h1 = '-' &&
        m1.isDigit && m2.isDigit && h2 = '-' && d1.isDigit && d2.isDigit &&
        dot = '.' && mc = 'm' && dc = 'd' then
      some (String.mk [y1, y2, y3, y4, h1, m1, m2, h2, d1, d2])
    else none
  | _ => none

/-- `filename.match(/^(\d\x7b4\x7d-\d\x7b2\x7d-\d\x7b2\x7d)_summary\.md$/)`. -/
def getSummaryDateStamp (filename : String) : Option String :=
  match filename.data with
  | [y1, y2, y3, y4, h1, m1, m2, h2, d1, d2, u, s1, u2, m3, m4, a1, r1, y5, dot, mc, dc] =>
    if y1.isDigit && y2.isDigit && y3.isDigit && y4.isDigit && h1 = '-' &&
        m1.isDigit && m2.isDigit && h2 = '-' && d1.isDigit && d2.isDigit &&
        u = '_' && s1 = 's' && u2 = 'u' && m3 = 'm' && m4 = 'm' && a1 = 'a' &&
        r1 = 'r' && y5 = 'y' && dot = '.' && mc = 'm' && dc = 'd' then
      some (String.mk [y1, y2, y3, y4, h1, m1, m2, h2, d1, d2])
    else none
  | _ => none

/-- The vault as the adapter exposes it: the set of file paths and the
set of folder paths, both as listed/created. -/
structure Vault where
  files : List String
  folders : List String
deriving DecidableEq

/-- `adapter.exists`. -/
def vexists (v : Vault) (p : String) : Bool :=
  v.files.contains p || v.folders.contains p

/-- `adapter.list(folder).files`: the files that are immediate children
of `folder` (full paths). -/
def isImmediateChild (folder p : String) : Bool :=
  startsWithL (folder.data ++ ['/']) p.data &&
    (p.data.drop (folder.data.length + 1)).all (fun c => c ≠ '/')

def listFiles (v : Vault) (folder : String) : List String :=
  v.files.filter (isImmediateChild folder)

/-- `adapter.rename(old, new)`: the file now sits at the new path. -/
def renameFile (v : Vault) (oldPath newPath : String) : Vault :=
  { v with files := v.files.map (fun p => if p = oldPath then newPath else p) }

/-- The segment-by-segment creation loop of `ensureFolderExists`. -/
def ensureFolderSegs (v : Vault) (current : String) : List String → Vault
  | [] => v
  | part :: rest =>
    let next := if current = "" then part else current ++ "/" ++ part
    let v' := if vexists v next then v else { v with folders := v.folders ++ [next] }
    ensureFolderSegs v' next rest

/-- `ensureFolderExists`: no-op for blank or ".", no-op when the path
already exists, otherwise create every missing prefix in order. -/
def ensureFolderExists (v : Vault) (folderPath : String) : Vault :=
  let normalized := normalizePath folderPath
  if normalized = "" || normalized = "." then v
  else if vexists v normalized then v
  else ensureFolderSegs v "" ((jsSplit '/' normalized).filter (fun s => s ≠ ""))

/-- The nested target the note pass computes for a decoded stamp. -/
def noteArchiveTarget (baseFolder dateStamp : String) : String :=
  normalizePath (baseFolder ++ "/" ++ optStr (getDateParts dateStamp).1 ++ "/" ++
    optStr (getDateParts dateStamp).2 ++ "/" ++ dateStamp ++ ".md")

/-- The folder the note pass ensures before renaming. -/
def noteArchiveFolder (baseFolder dateStamp : String) : String :=
  baseFolder ++ "/" ++ optStr (getDateParts dateStamp).1 ++ "/" ++
    optStr (getDateParts dateStamp).2

/-- The nested target the summary pass computes for a decoded stamp. -/
def summaryArchiveTarget (baseFolder dateStamp : String) : String :=
  normalizePath (baseFolder ++ "/" ++ optStr (getDateParts dateStamp).1 ++ "/" ++
    optStr (getDateParts dateStamp).2 ++ "/" ++ dateStamp ++ "_summary.md")

def summaryArchiveFolder (baseFolder dateStamp : String) : String :=
  baseFolder ++ "/" ++ optStr (getDateParts dateStamp).1 ++ "/" ++
    optStr (getDateParts dateStamp).2

/-- One iteration of the note-pass loop body, threading the vault and
recording the rename that was performed (if any). -/
def sortDailyNotesStep (baseFolder todayStamp : String)
    (acc : Vault × List (String × String)) (filePath : String) :
    Vault × List (String × String) :=
  let name := lastSegment filePath
  match getDailyNoteDateStamp name with
  | none => acc
  | some dateStamp =>
    if dateStamp = todayStamp then acc
    else
      let targetPath := noteArchiveTarget baseFolder dateStamp
      if filePath = targetPath then acc
      else
        let v := ensureFolderExists acc.1 (noteArchiveFolder baseFolder dateStamp)
        (renameFile v filePath targetPath, acc.2 ++ [(filePath, targetPath)])

/-- `sortDailyNotes(todayStamp)`: guard the base folder, take one
listing, then run the loop over it. -/
def sortDailyNotes (s : Settings) (todayStamp : String) (v : Vault) :
    Vault × List (String × String) :=
  let baseFolder := normalizePath s.dailyNotesFolder
  if baseFolder = "" || baseFolder = "." then (v, [])
  else if !vexists v baseFolder then (v, [])
  else (listFiles v baseFolder).foldl (sortDailyNotesStep baseFolder todayStamp) (v, [])

/-- One iteration of the summary-pass loop body. -/
def sortSummariesStep (baseFolder yesterdayStamp : String)
    (acc : Vault × List (String × String)) (filePath : String) :
    Vault × List (String × String) :=
  let name := lastSegment filePath
  match getSummaryDateStamp name with
  | none => acc
  | some dateStamp =>
    if !isDateStampBefore dateStamp yesterdayStamp then acc
    else
      let targetPath := summaryArchiveTarget baseFolder dateStamp
      if filePath = targetPath then acc
      else
        let v := ensureFolderExists acc.1 (summaryArchiveFolder baseFolder dateStamp)
        (renameFile v filePath targetPath, acc.2 ++ [(filePath, targetPath)])

/-- `sortSummaries(yesterdayStamp)`. -/
def sortSummaries (s : Settings) (yesterdayStamp : String) (v : Vault) :
    Vault × List (String × String) :=
  let baseFolder := normalizePath s.outputFolder
  if baseFolder = "" || baseFolder = "." then (v, [])
  else if !vexists v baseFolder then (v, [])
  else (listFiles v baseFolder).foldl (sortSummariesStep baseFolder yesterdayStamp) (v, [])

/-- `sortDailyNotesAndSummaries`: the note pass then the summary pass;
the second component collects every rename either pass performed. -/
def sortDailyNotesAndSummaries (s : Settings) (todayStamp yesterdayStamp : String)
    (v : Vault) : Vault × List (String × String) :=
  let r1 := sortDailyNotes s todayStamp v
  let r2 := sortSummaries s yesterdayStamp r1.1
  (r2.1, r1.2 ++ r2.2)

/-- Filesystem well-formedness: a file that sits inside a directory can
only do so if that directory exists (true of every reachable vault
state; the adapter cannot list or create a file under a missing folder). -/
def vaultWF (v : Vault) : Bool :=
  v.files.all (fun p => !(p.data.any (fun c => c = '/')) || vexists v (parentDir p))

/-- Canonical `YYYY-MM-DD` day-key shape. -/
def isCanonicalDayKey (d : String) : Bool :=
  match d.data with
  | [y1, y2, y3, y4, h1, m1, m2, h2, d1, d2] =>
    y1.isDigit && y2.isDigit && y3.isDigit && y4.isDigit && h1 = '-' &&
    m1.isDigit && m2.isDigit && h2 = '-' && d1.isDigit && d2.isDigit
  | _ => false

/-! ## Basic string glue lemmas. -/

theorem data_append (a b : String) : (a ++ b).data = a.data ++ b.data := rfl

theorem mk_data (s : String) : String.mk s.data = s := rfl

theorem strAppend_assoc (a b c : String) : a ++ b ++ c = a ++ (b ++ c) := by
  apply String.ext
  simp [data_append]

/-! ## Claim theorems. -/

/-- Claim C1: with `force = false` and an existing summary artifact at the
computed summary path, `processDateIfNeeded` stops at the gate: nothing
is written, no folder is ensured, no network call is made, no notice is
shown, and the settings are untouched and unsaved. -/
theorem spec_c1 (env : Env) (s : Settings) (dateStamp : String)
    (h : env.fsExists (getSummaryPath s env.now dateStamp) = true) :
    processDateIfNeeded env s dateStamp false =
      { vaultWrites := [], foldersEnsured := [], networkCalled := false,
        notices := [], settings := s, settingsSaved := false } := by
  simp [processDateIfNeeded, h]

theorem spec_c1_witness :
    (Env.mk ⟨2026, 2, 21, 10⟩ (fun _ => true) (fun _ => "") (Except.error "down")).fsExists
        (getSummaryPath ⟨"Daily", "Sums", "https://e", "", "m", "X", 60, false, ""⟩
          ⟨2026, 2, 21, 10⟩ "2026-02-20") = true ∧
    processDateIfNeeded
        (Env.mk ⟨2026, 2, 21, 10⟩ (fun _ => true) (fun _ => "") (Except.error "down"))
        ⟨"Daily", "Sums", "https://e", "", "m", "X", 60, false, ""⟩ "2026-02-20" false =
      { vaultWrites := [], foldersEnsured := [], networkCalled := false,
        notices := [],
        settings := ⟨"Daily", "Sums", "https://e", "", "m", "X", 60, false, ""⟩,
        settingsSaved := false } :=
  ⟨rfl, spec_c1 _ _ _ rfl⟩

/-- Claim C4: the two path resolvers are pure functions of the day key,
the configuration and the calendar date of the clock reading: two clock
readings that denote the same calendar day (hence the same yesterday)
yield identical paths, whatever their time of day. -/
theorem spec_c4 (s : Settings) (now₁ now₂ : JsDate) (dateStamp : String)
    (h1 : getLocalDateStamp now₁ = getLocalDateStamp now₂)
    (h2 : getLocalDateStamp (prevCalendarDay now₁) =
      getLocalDateStamp (prevCalendarDay now₂)) :
    getDailyNotePath s now₁ dateStamp = getDailyNotePath s now₂ dateStamp ∧
    getSummaryPath s now₁ dateStamp = getSummaryPath s now₂ dateStamp := by
  constructor
  · simp [getDailyNotePath, h1]
  · simp [getSummaryPath, getYesterdayStamp, h2]

theorem spec_c4_witness :
    getLocalDateStamp ⟨2026, 2, 20, 9⟩ = getLocalDateStamp ⟨2026, 2, 20, 23⟩ ∧
    getLocalDateStamp (prevCalendarDay ⟨2026, 2, 20, 9⟩) =
      getLocalDateStamp (prevCalendarDay ⟨2026, 2, 20, 23⟩) ∧
    getDailyNotePath ⟨"Daily", "Sums", "https://e", "", "m", "X", 60, true, ""⟩
        ⟨2026, 2, 20, 9⟩ "2026-01-05" =
      getDailyNotePath ⟨"Daily", "Sums", "https://e", "", "m", "X", 60, true, ""⟩
        ⟨2026, 2, 20, 23⟩ "2026-01-05" :=
  ⟨by decide, by decide,
    (spec_c4 ⟨"Daily", "Sums", "https://e", "", "m", "X", 60, true, ""⟩
      ⟨2026, 2, 20, 9⟩ ⟨2026, 2, 20, 23⟩ "2026-01-05" (by decide) (by decide)).1⟩

/-- Claim C7: `buildMessages` returns exactly the two messages in order —
the system message is the template with every `\x7b\x7bdate\x7d\x7d`
occurrence substituted by the day key, the user message is the fixed
preamble followed by the raw note — and the system message does not
depend on the note body at all. -/
theorem spec_c7 (s : Settings) (dateStamp note : String) :
    buildMessages s dateStamp note =
      [ { role := Role.system,
          content := jsReplaceAll s.promptTemplate "\x7b\x7bdate\x7d\x7d" dateStamp },
        { role := Role.user,
          content := "Daily note for " ++ dateStamp ++ ":\n\n" ++ note } ] ∧
    (buildMessages s dateStamp note).length = 2 ∧
    (∀ note' : String,
      (buildMessages s dateStamp note').head? = (buildMessages s dateStamp note).head?) :=
  ⟨rfl, rfl, fun _ => rfl⟩

/-- Claim C6: `callLlm` fails with the configuration error on a blank
endpoint without touching the network; given a delivered response, it
fails (with a backend error) exactly when the status is not 200 or the
JSON has no string at `choices[0].message.content`, and otherwise
returns that string verbatim. -/
theorem spec_c6 (s : Settings) (msgs : List ChatMessage)
    (t : Except String LlmHttpResponse) :
    (jsTrim s.llmEndpoint = "" →
      callLlm s msgs t = (Except.error LlmFailure.configEmptyEndpoint, false)) ∧
    (jsTrim s.llmEndpoint ≠ "" → ∀ r, t = Except.ok r →
      ((∃ e, (callLlm s msgs t).1 = Except.error e) ↔
        (r.status ≠ 200 ∨ ∀ c, extractLlmContent r.json ≠ some (Json.str c))) ∧
      (∀ c, r.status = 200 → extractLlmContent r.json = some (Json.str c) →
        (callLlm s msgs t).1 = Except.ok c)) := by
  constructor
  · intro h
    simp [callLlm, h]
  · intro h r ht
    subst ht
    constructor
    · by_cases hs : r.status = 200
      · cases hex : extractLlmContent r.json with
        | none => simp [callLlm, h, hs, hex]
        | some j => cases j <;> simp [callLlm, h, hs, hex]
      · simp [callLlm, h, hs]
    · intro c hs hex
      simp [callLlm, h, hs, hex]

theorem spec_c6_witness :
    jsTrim ("" : String) = "" ∧
    callLlm ⟨"Daily", "Sums", "", "", "m", "X", 60, false, ""⟩ []
        (Except.ok ⟨200, none⟩) =
      (Except.error LlmFailure.configEmptyEndpoint, false) :=
  ⟨rfl,
    (spec_c6 ⟨"Daily", "Sums", "", "", "m", "X", 60, false, ""⟩ []
      (Except.ok ⟨200, none⟩)).1 rfl⟩

/-! ## Claim C9 (`getDateParts`). -/

theorem digit_ne_hyphen {c : Char} (h : c.isDigit = true) : ¬c = '-' := by
  intro e
  subst e
  exact absurd h (by decide)

theorem splitCharAux_no_sep {sep : Char} (l acc : List Char)
    (h : ∀ c ∈ l, ¬c = sep) : splitCharAux sep acc l = [acc.reverse ++ l] := by
  induction l generalizing acc with
  | nil => simp [splitCharAux]
  | cons c rest ih =>
    have hc : ¬c = sep := h c (List.mem_cons_self c rest)
    rw [splitCharAux, if_neg (by simpa using hc)]
    rw [ih (c :: acc) (fun x hx => h x (List.mem_cons_of_mem c hx))]
    simp

/-- Counterexample to claim C9: on the malformed key "garbage",
`getDateParts` neither fails nor returns null — it returns an object
with the whole input as the year and an undefined month, and the path
builder happily interpolates "undefined" into a path. -/
theorem spec_c9_counterexample :
    getDateParts "garbage" = (some "garbage", none) ∧
    getDailyNotePath ⟨"Daily", "Sums", "https://e", "", "m", "X", 60, true, ""⟩
        ⟨2026, 2, 20, 10⟩ "garbage" = "Daily/garbage/undefined/garbage.md" := by
  constructor
  · rfl
  · rfl

/-- Claim C9, amended: `getDateParts` performs no validation and never
fails or returns null; it returns the pieces before the first and
second hyphens (an input without a hyphen yields the whole input as the
year and an undefined month), and on a canonical `YYYY-MM-DD` key it
returns the year and the zero-padded two-digit month components. -/
theorem spec_c9_amended :
    (∀ s : String, (∀ c ∈ s.data, ¬c = '-') → getDateParts s = (some s, none)) ∧
    (∀ y1 y2 y3 y4 m1 m2 d1 d2 : Char,
      y1.isDigit = true → y2.isDigit = true → y3.isDigit = true →
      y4.isDigit = true → m1.isDigit = true → m2.isDigit = true →
      d1.isDigit = true → d2.isDigit = true →
      getDateParts (String.mk [y1, y2, y3, y4, '-', m1, m2, '-', d1, d2]) =
        (some (String.mk [y1, y2, y3, y4]), some (String.mk [m1, m2]))) := by
  constructor
  · intro s h
    unfold getDateParts jsSplit
    rw [splitCharAux_no_sep s.data [] h]
    simp [mk_data]
  · intro y1 y2 y3 y4 m1 m2 d1 d2 hy1 hy2 hy3 hy4 hm1 hm2 hd1 hd2
    unfold getDateParts jsSplit
    simp [splitCharAux, digit_ne_hyphen hy1, digit_ne_hyphen hy2,
      digit_ne_hyphen hy3, digit_ne_hyphen hy4, digit_ne_hyphen hm1,
      digit_ne_hyphen hm2, digit_ne_hyphen hd1, digit_ne_hyphen hd2]

theorem spec_c9_amended_witness :
    (∀ c ∈ ("garbage" : String).data, ¬c = '-') ∧
    getDateParts "garbage" = (some "garbage", none) ∧
    getDateParts "2026-02-20" = (some "2026", some "02") :=
  ⟨by decide, spec_c9_amended.1 "garbage" (by decide),
    spec_c9_amended.2 '2' '0' '2' '6' '0' '2' '2' '0'
      (by decide) (by decide) (by decide) (by decide)
      (by decide) (by decide) (by decide) (by decide)⟩

/-! ## Lemmas about slash collapsing and `normalizePath`. -/

theorem collapseSlashAux_head_ne (l : List Char) :
    (collapseSlashAux (some '/') l).head? ≠ some '/' := by
  induction l with
  | nil => simp [collapseSlashAux]
  | cons c rest ih =>
    by_cases hc : c = '/'
    · subst hc
      simpa [collapseSlashAux] using ih
    · simp [collapseSlashAux, hc]

theorem noDoubleSlashB_cons (a : Char) (m : List Char) :
    noDoubleSlashB (a :: m) =
      ((match m.head? with
        | some b => !(a = '/' && b = '/')
        | none => true) && noDoubleSlashB m) := by
  cases m with
  | nil => simp [noDoubleSlashB]
  | cons b rest => simp [noDoubleSlashB]

theorem noDouble_collapse (l : List Char) (prev : Option Char) :
    noDoubleSlashB (collapseSlashAux prev l) = true := by
  induction l generalizing prev with
  | nil => simp [collapseSlashAux, noDoubleSlashB]
  | cons c rest ih =>
    by_cases hc : c = '/' && prev = some '/'
    · rw [collapseSlashAux, if_pos hc]
      exact ih prev
    · rw [collapseSlashAux, if_neg hc, noDoubleSlashB_cons, Bool.and_eq_true]
      refine ⟨?_, ih (some c)⟩
      cases hh : (collapseSlashAux (some c) rest).head? with
      | none => rfl
      | some b =>
        by_cases hcs : c = '/'
        · subst hcs
          by_cases hb : b = '/'
          · subst hb
            exact absurd hh (collapseSlashAux_head_ne rest)
          · simp [hb]
        · simp [hcs]

theorem collapse_id_of_noDouble (l : List Char) (prev : Option Char)
    (hnd : noDoubleSlashB l = true)
    (hhead : prev = some '/' → l.head? ≠ some '/') :
    collapseSlashAux prev l = l := by
  induction l generalizing prev with
  | nil => rfl
  | cons c rest ih =>
    have hcp : ¬(c = '/' && prev = some '/') = true := by
      intro h
      rw [Bool.and_eq_true] at h
      have hc : c = '/' := by simpa using h.1
      have hp : prev = some '/' := by simpa using h.2
      exact hhead hp (by subst hc; rfl)
    rw [collapseSlashAux, if_neg hcp]
    rw [noDoubleSlashB_cons, Bool.and_eq_true] at hnd
    obtain ⟨hh, ht⟩ := hnd
    refine congrArg (c :: ·) (ih (some c) ht ?_)
    intro hpc hr
    have hc : c = '/' := by simpa using hpc
    subst hc
    cases hm : rest.head? with
    | none => rw [hm] at hr; exact Option.noConfusion hr
    | some b =>
      rw [hm] at hh hr
      have hb : b = '/' := by injection hr
      subst hb
      simp at hh

theorem collapse_append (a b : List Char) (prev : Option Char) :
    collapseSlashAux prev (a ++ b) =
      collapseSlashAux prev a ++ collapseSlashAux (collapseCarry prev a) b := by
  induction a generalizing prev with
  | nil => rfl
  | cons c rest ih =>
    by_cases hc : (c = '/' && prev = some '/') = true
    · rw [List.cons_append, collapseSlashAux, if_pos hc, collapseSlashAux,
        if_pos hc, collapseCarry, if_pos hc]
      exact ih prev
    · rw [List.cons_append, collapseSlashAux, if_neg hc, collapseSlashAux,
        if_neg hc, collapseCarry, if_neg hc]
      rw [ih (some c)]
      rfl

theorem collapseCarry_getLast (a : List Char) (prev : Option Char) :
    collapseCarry prev a =
      (match (collapseSlashAux prev a).getLast? with
        | some c => some c
        | none => prev) := by
  induction a generalizing prev with
  | nil => rfl
  | cons c rest ih =>
    by_cases hc : (c = '/' && prev = some '/') = true
    · rw [collapseCarry, if_pos hc, collapseSlashAux, if_pos hc]
      exact ih prev
    · have hrw : collapseSlashAux prev (c :: rest) =
          c :: collapseSlashAux (some c) rest := by
        rw [collapseSlashAux, if_neg hc]
      rw [collapseCarry, if_neg hc, hrw, ih (some c)]
      cases hx : (collapseSlashAux (some c) rest).getLast? with
      | none =>
        have hnil : collapseSlashAux (some c) rest = [] :=
          List.getLast?_eq_none_iff.1 hx
        rw [hnil]
        rfl
      | some d =>
        have hne : collapseSlashAux (some c) rest ≠ [] := by
          intro hnil
          rw [hnil] at hx
          exact Option.noConfusion hx
        have hcl : (c :: collapseSlashAux (some c) rest).getLast? = some d := by
          rw [show c :: collapseSlashAux (some c) rest =
            [c] ++ collapseSlashAux (some c) rest from rfl]
          rw [List.getLast?_append_of_ne_nil [c] hne, hx]
        rw [hcl]

theorem collapse_no_backslash (l : List Char) (prev : Option Char)
    (h : ∀ c ∈ l, ¬c = '\\') : ∀ c ∈ collapseSlashAux prev l, ¬c = '\\' := by
  induction l generalizing prev with
  | nil => intro c hc; simp [collapseSlashAux] at hc
  | cons a rest ih =>
    intro c hc
    by_cases ha : (a = '/' && prev = some '/') = true
    · rw [collapseSlashAux, if_pos ha] at hc
      exact ih prev (fun x hx => h x (List.mem_cons_of_mem a hx)) c hc
    · rw [collapseSlashAux, if_neg ha] at hc
      rcases List.mem_cons.1 hc with h1 | h2
      · subst h1; exact h c (List.mem_cons_self _ _)
      · exact ih (some a) (fun x hx => h x (List.mem_cons_of_mem a hx)) c h2

theorem mapSlash_no_backslash (l : List Char) :
    ∀ c ∈ mapSlash l, ¬c = '\\' := by
  intro c hc
  rcases List.mem_map.1 hc with ⟨x, _, hx⟩
  by_cases hxb : x = '\\'
  · rw [← hx]; simp [hxb]
  · rw [← hx]; simp [hxb]

theorem mapSlash_id_of_no_backslash (l : List Char)
    (h : ∀ c ∈ l, ¬c = '\\') : mapSlash l = l := by
  induction l with
  | nil => rfl
  | cons a rest ih =>
    unfold mapSlash at *
    rw [List.map_cons, if_neg (h a (List.mem_cons_self _ _)),
      ih (fun c hc => h c (List.mem_cons_of_mem a hc))]

/-- Normalizing a path whose prefix is already normalized gives the same
result as normalizing the raw concatenation: the Archivist (which works
from `normalizePath(folder)`) and the path resolvers (which normalize
the whole raw string) agree. -/
theorem normalizePath_norm_append (a b : String) :
    normalizePath (normalizePath a ++ b) = normalizePath (a ++ b) := by
  apply String.ext
  show collapseSlashAux none (mapSlash ((normalizePath a) ++ b).data) =
    collapseSlashAux none (mapSlash (a ++ b).data)
  rw [data_append, data_append]
  have hX : (normalizePath a).data = collapseSlashAux none (mapSlash a.data) := rfl
  rw [hX]
  have hnb : ∀ c ∈ collapseSlashAux none (mapSlash a.data), ¬c = '\\' :=
    collapse_no_backslash _ none (mapSlash_no_backslash a.data)
  have h1 : mapSlash (collapseSlashAux none (mapSlash a.data) ++ b.data) =
      collapseSlashAux none (mapSlash a.data) ++ mapSlash b.data := by
    show List.map _ (collapseSlashAux none (mapSlash a.data) ++ b.data) = _
    rw [List.map_append]
    congr 1
    exact mapSlash_id_of_no_backslash _ hnb
  have h2 : mapSlash (a.data ++ b.data) = mapSlash a.data ++ mapSlash b.data :=
    List.map_append _ _ _
  rw [h1, h2]
  rw [collapse_append (collapseSlashAux none (mapSlash a.data)) (mapSlash b.data) none,
    collapse_append (mapSlash a.data) (mapSlash b.data) none]
  have hidem : collapseSlashAux none (collapseSlashAux none (mapSlash a.data)) =
      collapseSlashAux none (mapSlash a.data) :=
    collapse_id_of_noDouble _ none (noDouble_collapse _ none)
      (fun h => absurd h (by simp))
  have hcarry : collapseCarry none (collapseSlashAux none (mapSlash a.data)) =
      collapseCarry none (mapSlash a.data) := by
    rw [collapseCarry_getLast (collapseSlashAux none (mapSlash a.data)) none,
      collapseCarry_getLast (mapSlash a.data) none, hidem]
  rw [hidem, hcarry]

/-- `normalizePath` output shape: no double slash, no backslash. -/
theorem normalizePath_normalized (x : String) :
    noDoubleSlashB (normalizePath x).data = true ∧
    ∀ c ∈ (normalizePath x).data, ¬c = '\\' :=
  ⟨noDouble_collapse _ _, collapse_no_backslash _ _ (mapSlash_no_backslash _)⟩

/-- Counterexample to claim C5: a day key that is not in canonical form
is interpolated into the path unvalidated; the key "../escape" produces
a path with a ".." traversal segment that escapes the configured root. -/
theorem spec_c5_counterexample :
    getDailyNotePath ⟨"Daily", "Sums", "https://e", "", "m", "X", 60, false, ""⟩
        ⟨2026, 2, 20, 10⟩ "../escape" = "Daily/../escape.md" ∧
    ".." ∈ jsSplit '/'
      (getDailyNotePath ⟨"Daily", "Sums", "https://e", "", "m", "X", 60, false, ""⟩
        ⟨2026, 2, 20, 10⟩ "../escape") := by
  constructor
  · rfl
  · decide

/-- Claim C5, amended: the returned paths always have normalized,
non-redundant separators (no backslash, no doubled slash), but the day
key is never validated or sanitized, so a non-canonical key (for
example one containing "..") flows verbatim into a path that can escape
the configured root. -/
theorem spec_c5_amended (s : Settings) (now : JsDate) (d : String) :
    (noDoubleSlashB (getDailyNotePath s now d).data = true ∧
      ∀ c ∈ (getDailyNotePath s now d).data, ¬c = '\\') ∧
    (noDoubleSlashB (getSummaryPath s now d).data = true ∧
      ∀ c ∈ (getSummaryPath s now d).data, ¬c = '\\') := by
  constructor
  · unfold getDailyNotePath
    split
    · exact normalizePath_normalized _
    · exact normalizePath_normalized _
  · unfold getSummaryPath
    split
    · split
      · exact normalizePath_normalized _
      · exact normalizePath_normalized _
    · exact normalizePath_normalized _

/-- Claim C10: for a day strictly before yesterday (with sorting
enabled), the nested target the Archivist's summary pass computes from
the normalized output folder is exactly the path `getSummaryPath`
returns, so a relocated summary is still found by the Day Processor's
existence-check gate. -/
theorem spec_c10 (s : Settings) (now : JsDate) (d : String)
    (_hcanon : isCanonicalDayKey d = true)
    (hsort : s.sortDailyNotesAndSummaries = true)
    (hbefore : isDateStampBefore d (getYesterdayStamp now) = true) :
    summaryArchiveTarget (normalizePath s.outputFolder) d = getSummaryPath s now d := by
  unfold summaryArchiveTarget getSummaryPath
  rw [hsort]
  simp only [hbefore, if_true]
  simp only [strAppend_assoc]
  exact normalizePath_norm_append _ _

/-! ## Trim lemmas for the persist step. -/

theorem head?_dropWhile_not {p : Char → Bool} :
    ∀ {l : List Char} {c : Char}, (l.dropWhile p).head? = some c → p c = false := by
  intro l
  induction l with
  | nil => intro c h; simp [List.dropWhile] at h
  | cons a rest ih =>
    intro c h
    by_cases hpa : p a
    · rw [List.dropWhile_cons, if_pos hpa] at h
      exact ih h
    · rw [List.dropWhile_cons, if_neg hpa] at h
      have : a = c := by injection h
      subst this
      exact Bool.not_eq_true _ ▸ hpa

theorem dropWhile_decomp {p : Char → Bool} (l : List Char) :
    ∃ pre, l = pre ++ l.dropWhile p := by
  induction l with
  | nil => exact ⟨[], rfl⟩
  | cons a rest ih =>
    by_cases hpa : p a
    · rcases ih with ⟨pre, hpre⟩
      refine ⟨a :: pre, ?_⟩
      rw [List.dropWhile_cons, if_pos hpa, List.cons_append, ← hpre]
    · exact ⟨[], by rw [List.dropWhile_cons, if_neg hpa]; rfl⟩

theorem dropWhile_head_spec {p : Char → Bool} {l : List Char}
    (h : l.dropWhile p ≠ []) :
    ∃ c, (l.dropWhile p).head? = some c ∧ p c = false := by
  cases hd : l.dropWhile p with
  | nil => exact absurd hd h
  | cons a rest =>
    exact ⟨a, rfl, head?_dropWhile_not (p := p) (l := l) (by rw [hd]; rfl)⟩

theorem dropWhile_getLast_eq {p : Char → Bool} {l : List Char}
    (h : l.dropWhile p ≠ []) : (l.dropWhile p).getLast? = l.getLast? := by
  obtain ⟨pre, hpre⟩ := dropWhile_decomp (p := p) l
  conv_rhs => rw [hpre]
  rw [List.getLast?_append_of_ne_nil pre h]

theorem jsTrimList_boundary (m : List Char) (h : jsTrimList m ≠ []) :
    ∃ c1 c2, (jsTrimList m).head? = some c1 ∧ wsChar c1 = false ∧
      (jsTrimList m).getLast? = some c2 ∧ wsChar c2 = false := by
  have ht : (m.dropWhile wsChar).reverse.dropWhile wsChar ≠ [] := by
    intro hnil
    apply h
    unfold jsTrimList
    rw [hnil]
    rfl
  have hr : m.dropWhile wsChar ≠ [] := by
    intro hnil
    apply ht
    rw [hnil]
    rfl
  obtain ⟨c1, hc1, hw1⟩ := dropWhile_head_spec (l := m) hr
  obtain ⟨c2, hc2, hw2⟩ := dropWhile_head_spec
    (l := (m.dropWhile wsChar).reverse) ht
  refine ⟨c1, c2, ?_, hw1, ?_, hw2⟩
  · show ((m.dropWhile wsChar).reverse.dropWhile wsChar).reverse.head? = some c1
    rw [List.head?_reverse, dropWhile_getLast_eq ht, List.getLast?_reverse]
    exact hc1
  · show ((m.dropWhile wsChar).reverse.dropWhile wsChar).reverse.getLast? = some c2
    rw [List.getLast?_reverse]
    exact hc2

theorem jsTrimList_id (l : List Char) (c1 c2 : Char)
    (h1 : l.head? = some c1) (hw1 : wsChar c1 = false)
    (h2 : l.getLast? = some c2) (hw2 : wsChar c2 = false) :
    jsTrimList l = l := by
  have hlne : l ≠ [] := by
    intro hnil
    rw [hnil] at h1
    exact Option.noConfusion h1
  have e1 : l.dropWhile wsChar = l := by
    cases hll : l with
    | nil => exact absurd hll hlne
    | cons a rest =>
      have ha : a = c1 := by rw [hll] at h1; injection h1
      subst ha
      rw [List.dropWhile_cons, if_neg (by simp [hw1])]
  have e2 : l.reverse.dropWhile wsChar = l.reverse := by
    cases hlr : l.reverse with
    | nil => exact absurd (by simpa using congrArg List.reverse hlr) hlne
    | cons a rest =>
      have ha : a = c2 := by
        have := List.head?_reverse l
        rw [hlr, h2] at this
        injection this
      subst ha
      rw [List.dropWhile_cons, if_neg (by simp [hw2])]
  unfold jsTrimList
  rw [e1, e2, List.reverse_reverse]

/-- Appending a tail that ends in a non-whitespace character to a
nonempty trimmed string is `trim`-invariant (the second `.trim()` of the
persist step is the identity whenever the trimmed summary is nonempty). -/
theorem jsTrim_append_trimmed (u tail : String) (hu : ¬jsTrim u = "")
    (c : Char) (htail : tail.data.getLast? = some c) (hwc : wsChar c = false) :
    jsTrim (jsTrim u ++ tail) = jsTrim u ++ tail := by
  have hne : jsTrimList u.data ≠ [] := by
    intro hnil
    apply hu
    show String.mk (jsTrimList u.data) = ""
    rw [hnil]
  obtain ⟨c1, c2, hh, hw1, _, _⟩ := jsTrimList_boundary u.data hne
  have htne : tail.data ≠ [] := by
    intro hnil
    rw [hnil] at htail
    exact Option.noConfusion htail
  have hdata : (jsTrim u ++ tail).data = jsTrimList u.data ++ tail.data := rfl
  have hhead : (jsTrim u ++ tail).data.head? = some c1 := by
    rw [hdata, List.head?_append_of_ne_nil _ hne]
    exact hh
  have hlast : (jsTrim u ++ tail).data.getLast? = some c := by
    rw [hdata, List.getLast?_append_of_ne_nil _ htne]
    exact htail
  show String.mk (jsTrimList (jsTrim u ++ tail).data) = jsTrim u ++ tail
  rw [jsTrimList_id _ c1 c hhead hw1 hlast hwc]

/-- Reduction of `processDateIfNeeded` to the failure branch when the
gate and the note checks pass and the LLM call fails. -/
theorem proc_llm_error (env : Env) (s : Settings) (d : String) (force : Bool)
    (e : LlmFailure) (called : Bool)
    (h1 : force = true ∨ env.fsExists (getSummaryPath s env.now d) = false)
    (h2 : env.fsExists (getDailyNotePath s env.now d) = true)
    (h3 : ¬jsTrim (env.fsRead (getDailyNotePath s env.now d)) = "")
    (h4 : ¬(jsTrim (env.fsRead (getDailyNotePath s env.now d))).length < 20)
    (h5 : callLlm s (buildMessages s d (jsTrim (env.fsRead (getDailyNotePath s env.now d))))
      env.transport = (Except.error e, called)) :
    processDateIfNeeded env s d force =
      { vaultWrites := [], foldersEnsured := [], networkCalled := called,
        notices := ["Daily summary failed: " ++ llmFailureMessage e],
        settings := s, settingsSaved := false } := by
  rcases h1 with h1 | h1
  · subst h1
    simp [processDateIfNeeded, h2, h3, h4, h5]
  · simp [processDateIfNeeded, h1, h2, h3, h4, h5]

/-- Reduction of `processDateIfNeeded` to the persist branch when every
check passes and the LLM returns a non-empty summary. -/
theorem proc_llm_ok (env : Env) (s : Settings) (d : String) (force : Bool)
    (summary : String) (called : Bool)
    (h1 : force = true ∨ env.fsExists (getSummaryPath s env.now d) = false)
    (h2 : env.fsExists (getDailyNotePath s env.now d) = true)
    (h3 : ¬jsTrim (env.fsRead (getDailyNotePath s env.now d)) = "")
    (h4 : ¬(jsTrim (env.fsRead (getDailyNotePath s env.now d))).length < 20)
    (h5 : callLlm s (buildMessages s d (jsTrim (env.fsRead (getDailyNotePath s env.now d))))
      env.transport = (Except.ok summary, called))
    (h6 : ¬summary = "") :
    processDateIfNeeded env s d force =
      { vaultWrites := [(getSummaryPath s env.now d,
          jsTrim (jsTrim summary ++ ("\n\n---\n\n[Original note](" ++ d ++ ")")) ++ "\n")],
        foldersEnsured := [s.outputFolder,
          jsJoin "/" ((jsSplit '/' (getSummaryPath s env.now d)).dropLast)],
        networkCalled := called,
        notices := ["Daily summary saved: " ++ getSummaryPath s env.now d],
        settings := { s with lastProcessedDate := d },
        settingsSaved := true } := by
  rcases h1 with h1 | h1
  · subst h1
    simp [processDateIfNeeded, h2, h3, h4, h5, h6]
  · simp [processDateIfNeeded, h1, h2, h3, h4, h5, h6]

/-- Claim C3: when the gate and note checks pass and the summarization
call fails (configuration error, backend error or transport failure),
the error is absorbed inside the invocation — the embedding is a total
function, mirroring the `try`/`catch` that never rethrows — with
exactly one user-visible failure notice, no write, no folder creation,
and the settings (including `lastProcessedDate`) unchanged and unsaved. -/
theorem spec_c3 (env : Env) (s : Settings) (d : String) (force : Bool)
    (e : LlmFailure) (called : Bool)
    (h1 : force = true ∨ env.fsExists (getSummaryPath s env.now d) = false)
    (h2 : env.fsExists (getDailyNotePath s env.now d) = true)
    (h3 : ¬jsTrim (env.fsRead (getDailyNotePath s env.now d)) = "")
    (h4 : ¬(jsTrim (env.fsRead (getDailyNotePath s env.now d))).length < 20)
    (h5 : callLlm s (buildMessages s d (jsTrim (env.fsRead (getDailyNotePath s env.now d))))
      env.transport = (Except.error e, called)) :
    (processDateIfNeeded env s d force).notices =
      ["Daily summary failed: " ++ llmFailureMessage e] ∧
    (processDateIfNeeded env s d force).vaultWrites = [] ∧
    (processDateIfNeeded env s d force).foldersEnsured = [] ∧
    (processDateIfNeeded env s d force).settings = s ∧
    (processDateIfNeeded env s d force).settingsSaved = false := by
  rw [proc_llm_error env s d force e called h1 h2 h3 h4 h5]
  exact ⟨rfl, rfl, rfl, rfl, rfl⟩

theorem spec_c3_witness :
    callLlm ⟨"Daily", "Sums", "https://e", "", "m", "X", 60, false, ""⟩
        (buildMessages ⟨"Daily", "Sums", "https://e", "", "m", "X", 60, false, ""⟩
          "2026-02-20"
          (jsTrim ((fun _ => "This note has more than twenty characters.") "Daily/2026-02-20.md")))
        (Except.error "boom") =
      (Except.error (LlmFailure.transport "boom"), Bool.true) ∧
    (processDateIfNeeded
        ⟨⟨2026, 2, 21, 10⟩, fun p => p = "Daily/2026-02-20.md",
          fun _ => "This note has more than twenty characters.", Except.error "boom"⟩
        ⟨"Daily", "Sums", "https://e", "", "m", "X", 60, false, ""⟩
        "2026-02-20" true).notices = ["Daily summary failed: boom"] :=
  ⟨rfl,
    (spec_c3
      ⟨⟨2026, 2, 21, 10⟩, fun p => p = "Daily/2026-02-20.md",
        fun _ => "This note has more than twenty characters.", Except.error "boom"⟩
      ⟨"Daily", "Sums", "https://e", "", "m", "X", 60, false, ""⟩
      "2026-02-20" true (LlmFailure.transport "boom") true
      (Or.inl rfl) (by decide) (by decide) (by decide) rfl).1⟩

/-- Counterexample to claim C2: a summary consisting of one space
reaches the persist step (it is non-empty, so the empty-result guard
passes), but the written artifact is
"---\n\n[Original note](2026-02-20)\n" — the second `trim` deletes the
blank-line separator the claim promises, so the content differs from
`trimmed summary ++ backlink ++ newline`. -/
theorem spec_c2_counterexample :
    (processDateIfNeeded
        ⟨⟨2026, 2, 21, 10⟩, fun p => p = "Daily/2026-02-20.md",
          fun _ => "This note has more than twenty characters.",
          Except.ok ⟨200, some (Json.obj [("choices", Json.arr [Json.obj
            [("message", Json.obj [("content", Json.str " ")])]])])⟩⟩
        ⟨"Daily", "Sums", "https://e", "", "m", "X", 60, false, ""⟩
        "2026-02-20" true).vaultWrites =
      [("Sums/2026-02-20_summary.md", "---\n\n[Original note](2026-02-20)\n")] ∧
    ¬("---\n\n[Original note](2026-02-20)\n" =
      jsTrim " " ++ "\n\n---\n\n[Original note](2026-02-20)" ++ "\n") := by
  constructor
  · decide
  · decide

/-- Claim C2, amended: whenever the run reaches the persist step and the
trimmed summary is non-empty, the written artifact is exactly the
trimmed summary, the horizontal-rule backlink section, and one trailing
newline (when the summary trims to the empty string the leading blank
line of the backlink section is trimmed away instead). -/
theorem spec_c2_amended (env : Env) (s : Settings) (d : String) (force : Bool)
    (summary : String) (called : Bool)
    (h1 : force = true ∨ env.fsExists (getSummaryPath s env.now d) = false)
    (h2 : env.fsExists (getDailyNotePath s env.now d) = true)
    (h3 : ¬jsTrim (env.fsRead (getDailyNotePath s env.now d)) = "")
    (h4 : ¬(jsTrim (env.fsRead (getDailyNotePath s env.now d))).length < 20)
    (h5 : callLlm s (buildMessages s d (jsTrim (env.fsRead (getDailyNotePath s env.now d))))
      env.transport = (Except.ok summary, called))
    (h6 : ¬summary = "")
    (h7 : ¬jsTrim summary = "") :
    (processDateIfNeeded env s d force).vaultWrites =
      [(getSummaryPath s env.now d,
        jsTrim summary ++ "\n\n---\n\n[Original note](" ++ d ++ ")" ++ "\n")] := by
  rw [proc_llm_ok env s d force summary called h1 h2 h3 h4 h5 h6]
  have hgl : ("\n\n---\n\n[Original note](" ++ d ++ ")").data.getLast? = some ')' := by
    rw [show ("\n\n---\n\n[Original note](" ++ d ++ ")") =
      ("\n\n---\n\n[Original note](" ++ d) ++ ")" from rfl]
    rw [data_append, List.getLast?_append_of_ne_nil _ (by simp [String.data])]
    rfl
  rw [jsTrim_append_trimmed summary _ h7 ')' hgl (by decide)]
  simp [strAppend_assoc]

theorem spec_c2_amended_witness :
    callLlm ⟨"Daily", "Sums", "https://e", "", "m", "X", 60, false, ""⟩
        (buildMessages ⟨"Daily", "Sums", "https://e", "", "m", "X", 60, false, ""⟩
          "2026-02-20"
          (jsTrim ((fun _ => "This note has more than twenty characters.") "Daily/2026-02-20.md")))
        (Except.ok ⟨200, some (Json.obj [("choices", Json.arr [Json.obj
          [("message", Json.obj [("content", Json.str "Summary text")])]])])⟩) =
      (Except.ok "Summary text", Bool.true) ∧
    (processDateIfNeeded
        ⟨⟨2026, 2, 21, 10⟩, fun p => p = "Daily/2026-02-20.md",
          fun _ => "This note has more than twenty characters.",
          Except.ok ⟨200, some (Json.obj [("choices", Json.arr [Json.obj
            [("message", Json.obj [("content", Json.str "Summary text")])]])])⟩⟩
        ⟨"Daily", "Sums", "https://e", "", "m", "X", 60, false, ""⟩
        "2026-02-20" true).vaultWrites =
      [("Sums/2026-02-20_summary.md",
        "Summary text\n\n---\n\n[Original note](2026-02-20)\n")] := by
  constructor
  · rfl
  · rw [spec_c2_amended
      ⟨⟨2026, 2, 21, 10⟩, fun p => p = "Daily/2026-02-20.md",
        fun _ => "This note has more than twenty characters.",
        Except.ok ⟨200, some (Json.obj [("choices", Json.arr [Json.obj
          [("message", Json.obj [("content", Json.str "Summary text")])]])])⟩⟩
      ⟨"Daily", "Sums", "https://e", "", "m", "X", 60, false, ""⟩
      "2026-02-20" true "Summary text" true
      (Or.inl rfl) (by decide) (by decide) (by decide) rfl
      (by decide) (by decide)]
    decide

theorem spec_c10_witness :
    isCanonicalDayKey "2026-01-05" = true ∧
    isDateStampBefore "2026-01-05"
      (getYesterdayStamp ⟨2026, 2, 20, 10⟩) = true ∧
    summaryArchiveTarget
        (normalizePath ("Sums" : String)) "2026-01-05" =
      getSummaryPath ⟨"Daily", "Sums", "https://e", "", "m", "X", 60, true, ""⟩
        ⟨2026, 2, 20, 10⟩ "2026-01-05" :=
  ⟨by decide, by decide,
    spec_c10 ⟨"Daily", "Sums", "https://e", "", "m", "X", 60, true, ""⟩
      ⟨2026, 2, 20, 10⟩ "2026-01-05" (by decide) rfl (by decide)⟩

/-! ## Archivist analysis: the loop bodies as condition/target passes. -/

/-- The rename decision of the note pass as a function of the file path
alone (it reads no vault state): the target, when the name decodes, the
day is not today, and the file is not already at its target. -/
def noteRenameTarget (baseFolder todayStamp p : String) : Option String :=
  match getDailyNoteDateStamp (lastSegment p) with
  | none => none
  | some d =>
    if d = todayStamp then none
    else if p = noteArchiveTarget baseFolder d then none
    else some (noteArchiveTarget baseFolder d)

def noteRenameFolderOf (baseFolder p : String) : String :=
  match getDailyNoteDateStamp (lastSegment p) with
  | some d => noteArchiveFolder baseFolder d
  | none => ""

/-- The rename decision of the summary pass. -/
def summaryRenameTarget (baseFolder yesterdayStamp p : String) : Option String :=
  match getSummaryDateStamp (lastSegment p) with
  | none => none
  | some d =>
    if !isDateStampBefore d yesterdayStamp then none
    else if p = summaryArchiveTarget baseFolder d then none
    else some (summaryArchiveTarget baseFolder d)

def summaryRenameFolderOf (baseFolder p : String) : String :=
  match getSummaryDateStamp (lastSegment p) with
  | some d => summaryArchiveFolder baseFolder d
  | none => ""

/-- Common shape of both loop bodies: skip, or ensure the target folder
and rename. -/
def archivePassStep (cond : String → Option String) (folderOf : String → String)
    (acc : Vault × List (String × String)) (p : String) :
    Vault × List (String × String) :=
  match cond p with
  | none => acc
  | some t =>
    (renameFile (ensureFolderExists acc.1 (folderOf p)) p t, acc.2 ++ [(p, t)])

theorem sortDailyNotesStep_eq (B today : String) :
    sortDailyNotesStep B today =
      archivePassStep (noteRenameTarget B today) (noteRenameFolderOf B) := by
  funext acc p
  unfold sortDailyNotesStep archivePassStep noteRenameTarget noteRenameFolderOf
  cases hd : getDailyNoteDateStamp (lastSegment p) with
  | none => simp [hd]
  | some d =>
    simp only [hd]
    by_cases ht : d = today
    · simp [ht]
    · by_cases hp : p = noteArchiveTarget B d
      · simp [ht, hp]
      · simp [ht, hp]

theorem sortSummariesStep_eq (O ys : String) :
    sortSummariesStep O ys =
      archivePassStep (summaryRenameTarget O ys) (summaryRenameFolderOf O) := by
  funext acc p
  unfold sortSummariesStep archivePassStep summaryRenameTarget summaryRenameFolderOf
  cases hd : getSummaryDateStamp (lastSegment p) with
  | none => simp [hd]
  | some d =>
    simp only [hd]
    by_cases hb : isDateStampBefore d ys
    · by_cases hp : p = summaryArchiveTarget O d
      · simp [hb, hp]
      · simp [hb, hp]
    · simp [hb]

/-! ## Vault-operation lemmas. -/

theorem ensureFolderSegs_files (v : Vault) (cur : String) (parts : List String) :
    (ensureFolderSegs v cur parts).files = v.files := by
  induction parts generalizing v cur with
  | nil => rfl
  | cons part rest ih =>
    unfold ensureFolderSegs
    rw [ih]
    by_cases h : vexists v (if cur = "" then part else cur ++ "/" ++ part)
    · rw [if_pos h]
    · rw [if_neg h]

theorem ensureFolderExists_files (v : Vault) (f : String) :
    (ensureFolderExists v f).files = v.files := by
  unfold ensureFolderExists
  by_cases h1 : (normalizePath f = "" || normalizePath f = ".") = true
  · rw [if_pos h1]
  · rw [if_neg h1]
    by_cases h2 : vexists v (normalizePath f) = true
    · rw [if_pos h2]
    · rw [if_neg h2, ensureFolderSegs_files]

theorem renameFile_mem (v : Vault) (a b q : String) :
    q ∈ (renameFile v a b).files ↔
      (q ∈ v.files ∧ ¬q = a) ∨ (a ∈ v.files ∧ q = b) := by
  unfold renameFile
  simp only [List.mem_map]
  constructor
  · rintro ⟨x, hx, hfx⟩
    by_cases hxa : x = a
    · subst hxa
      rw [if_pos rfl] at hfx
      exact Or.inr ⟨hx, hfx.symm⟩
    · rw [if_neg hxa] at hfx
      subst hfx
      exact Or.inl ⟨hx, hxa⟩
  · rintro (⟨hq, hqa⟩ | ⟨ha, hqb⟩)
    · exact ⟨q, hq, by rw [if_neg hqa]⟩
    · exact ⟨a, ha, by rw [if_pos rfl, hqb]⟩

/-! ## Fold lemmas for an archive pass. -/

theorem afold_skip (cond : String → Option String) (folderOf : String → String)
    (L : List String) (acc : Vault × List (String × String))
    (h : ∀ p ∈ L, cond p = none) :
    L.foldl (archivePassStep cond folderOf) acc = acc := by
  induction L generalizing acc with
  | nil => rfl
  | cons p rest ih =>
    rw [List.foldl_cons]
    rw [show archivePassStep cond folderOf acc p = acc from by
      unfold archivePassStep
      rw [h p (List.mem_cons_self _ _)]]
    exact ih acc (fun q hq => h q (List.mem_cons_of_mem p hq))

theorem afold_renames (cond : String → Option String) (folderOf : String → String)
    (L : List String) (acc : Vault × List (String × String)) :
    ∀ pr ∈ (L.foldl (archivePassStep cond folderOf) acc).2,
      pr ∈ acc.2 ∨ (pr.1 ∈ L ∧ cond pr.1 = some pr.2) := by
  induction L generalizing acc with
  | nil => intro pr hpr; exact Or.inl hpr
  | cons p rest ih =>
    intro pr hpr
    rw [List.foldl_cons] at hpr
    cases hc : cond p with
    | none =>
      rw [show archivePassStep cond folderOf acc p = acc from by
        unfold archivePassStep; rw [hc]] at hpr
      rcases ih acc pr hpr with h | ⟨h1, h2⟩
      · exact Or.inl h
      · exact Or.inr ⟨List.mem_cons_of_mem p h1, h2⟩
    | some t =>
      rw [show archivePassStep cond folderOf acc p =
        (renameFile (ensureFolderExists acc.1 (folderOf p)) p t, acc.2 ++ [(p, t)])
        from by unfold archivePassStep; rw [hc]] at hpr
      rcases ih _ pr hpr with h | ⟨h1, h2⟩
      · rcases List.mem_append.1 h with h' | h'
        · exact Or.inl h'
        · have : pr = (p, t) := by simpa using h'
          subst this
          exact Or.inr ⟨List.mem_cons_self _ _, hc⟩
      · exact Or.inr ⟨List.mem_cons_of_mem p h1, h2⟩

theorem afold_mem_files (cond : String → Option String) (folderOf : String → String)
    (L : List String) (acc : Vault × List (String × String)) (q : String)
    (h : q ∈ (L.foldl (archivePassStep cond folderOf) acc).1.files) :
    q ∈ acc.1.files ∨ ∃ p ∈ L, cond p = some q := by
  induction L generalizing acc with
  | nil => exact Or.inl h
  | cons p rest ih =>
    rw [List.foldl_cons] at h
    cases hc : cond p with
    | none =>
      rw [show archivePassStep cond folderOf acc p = acc from by
        unfold archivePassStep; rw [hc]] at h
      rcases ih acc h with h' | ⟨p', hp', hc'⟩
      · exact Or.inl h'
      · exact Or.inr ⟨p', List.mem_cons_of_mem p hp', hc'⟩
    | some t =>
      rw [show archivePassStep cond folderOf acc p =
        (renameFile (ensureFolderExists acc.1 (folderOf p)) p t, acc.2 ++ [(p, t)])
        from by unfold archivePassStep; rw [hc]] at h
      rcases ih _ h with h' | ⟨p', hp', hc'⟩
      · rcases (renameFile_mem _ p t q).1 h' with ⟨hq, _⟩ | ⟨_, hq⟩
        · rw [ensureFolderExists_files] at hq
          exact Or.inl hq
        · subst hq
          exact Or.inr ⟨p, List.mem_cons_self _ _, hc⟩
      · exact Or.inr ⟨p', List.mem_cons_of_mem p hp', hc'⟩

theorem afold_noadd (cond : String → Option String) (folderOf : String → String)
    (L : List String) (acc : Vault × List (String × String)) (q : String)
    (htargets : ∀ p ∈ L, ∀ t, cond p = some t → ¬t = q)
    (hq : q ∉ acc.1.files) :
    q ∉ (L.foldl (archivePassStep cond folderOf) acc).1.files := by
  induction L generalizing acc with
  | nil => exact hq
  | cons p rest ih =>
    rw [List.foldl_cons]
    cases hc : cond p with
    | none =>
      rw [show archivePassStep cond folderOf acc p = acc from by
        unfold archivePassStep; rw [hc]]
      exact ih acc (fun p' hp' => htargets p' (List.mem_cons_of_mem p hp')) hq
    | some t =>
      rw [show archivePassStep cond folderOf acc p =
        (renameFile (ensureFolderExists acc.1 (folderOf p)) p t, acc.2 ++ [(p, t)])
        from by unfold archivePassStep; rw [hc]]
      refine ih _ (fun p' hp' => htargets p' (List.mem_cons_of_mem p hp')) ?_
      intro hmem
      rcases (renameFile_mem _ p t q).1 hmem with ⟨hq', _⟩ | ⟨_, hq'⟩
      · rw [ensureFolderExists_files] at hq'
        exact hq hq'
      · exact htargets p (List.mem_cons_self _ _) t hc hq'.symm

theorem afold_remove (cond : String → Option String) (folderOf : String → String)
    (L : List String) (acc : Vault × List (String × String)) (q tq : String)
    (htargets : ∀ p ∈ L, ∀ t, cond p = some t → ¬t = q)
    (hcq : cond q = some tq) (hne : ¬tq = q) (hqL : q ∈ L) :
    q ∉ (L.foldl (archivePassStep cond folderOf) acc).1.files := by
  induction L generalizing acc with
  | nil => exact absurd hqL (by simp)
  | cons p rest ih =>
    rw [List.foldl_cons]
    by_cases hpq : p = q
    · subst hpq
      rw [show archivePassStep cond folderOf acc p =
        (renameFile (ensureFolderExists acc.1 (folderOf p)) p tq, acc.2 ++ [(p, tq)])
        from by unfold archivePassStep; rw [hcq]]
      refine afold_noadd cond folderOf rest _ p
        (fun p' hp' => htargets p' (List.mem_cons_of_mem p hp')) ?_
      intro hmem
      rcases (renameFile_mem _ p tq p).1 hmem with ⟨_, hq'⟩ | ⟨_, hq'⟩
      · exact hq' rfl
      · exact hne hq'.symm
    · have hqrest : q ∈ rest := by
        rcases List.mem_cons.1 hqL with h | h
        · exact absurd h.symm hpq
        · exact h
      exact ih _ (fun p' hp' => htargets p' (List.mem_cons_of_mem p hp')) hqrest

/-! ## `lastSegment` of an archive target. -/

theorem takeWhile_append_all {p : Char → Bool} (l1 l2 : List Char)
    (h : ∀ x ∈ l1, p x = true) :
    (l1 ++ l2).takeWhile p = l1 ++ l2.takeWhile p := by
  induction l1 with
  | nil => rfl
  | cons a rest ih =>
    rw [List.cons_append, List.takeWhile_cons, if_pos (h a (List.mem_cons_self _ _)),
      ih (fun x hx => h x (List.mem_cons_of_mem a hx)), List.cons_append]

theorem takeWhile_all {p : Char → Bool} (l : List Char)
    (h : ∀ x ∈ l, p x = true) : l.takeWhile p = l := by
  have := takeWhile_append_all (p := p) l [] h
  simpa using this

theorem takeWhile_append_stop {p : Char → Bool} (l1 l2 : List Char)
    (h : ∃ x ∈ l1, p x = false) :
    (l1 ++ l2).takeWhile p = l1.takeWhile p := by
  induction l1 with
  | nil => rcases h with ⟨x, hx, _⟩; simp at hx
  | cons a rest ih =>
    by_cases hpa : p a
    · rw [List.cons_append, List.takeWhile_cons, if_pos hpa, List.takeWhile_cons,
        if_pos hpa]
      rcases h with ⟨x, hx, hpx⟩
      rcases List.mem_cons.1 hx with h' | h'
      · subst h'; rw [hpa] at hpx; exact absurd hpx (by simp)
      · rw [ih ⟨x, h', hpx⟩]
    · rw [List.cons_append, List.takeWhile_cons,
        if_neg hpa, List.takeWhile_cons, if_neg hpa]

theorem dropWhile_append_all {p : Char → Bool} (l1 l2 : List Char)
    (h : ∀ x ∈ l1, p x = true) :
    (l1 ++ l2).dropWhile p = l2.dropWhile p := by
  induction l1 with
  | nil => rfl
  | cons a rest ih =>
    rw [List.cons_append, List.dropWhile_cons, if_pos (h a (List.mem_cons_self _ _)),
      ih (fun x hx => h x (List.mem_cons_of_mem a hx))]

theorem afterLastSep_no_sep {sep : Char} (l : List Char)
    (h : ∀ c ∈ l, ¬c = sep) : afterLastSep sep l = l := by
  unfold afterLastSep
  rw [takeWhile_all _ (by
    intro x hx
    simp only [decide_eq_true_eq]
    exact h x (List.mem_reverse.1 hx)), List.reverse_reverse]

theorem afterLastSep_cons_of_mem {sep : Char} (c : Char) (l : List Char)
    (h : sep ∈ l) : afterLastSep sep (c :: l) = afterLastSep sep l := by
  unfold afterLastSep
  rw [List.reverse_cons, takeWhile_append_stop]
  exact ⟨sep, List.mem_reverse.2 h, by simp⟩

theorem afterLastSep_sep_cons {sep : Char} (l : List Char)
    (h : ∀ c ∈ l, ¬c = sep) : afterLastSep sep (sep :: l) = l := by
  unfold afterLastSep
  rw [List.reverse_cons, takeWhile_append_all _ _ (by
    intro x hx
    simp only [decide_eq_true_eq]
    exact h x (List.mem_reverse.1 hx))]
  rw [show List.takeWhile (fun c => decide (¬c = sep)) [sep] = [] from by simp,
    List.append_nil, List.reverse_reverse]

theorem collapse_no_slash_id (l : List Char) (prev : Option Char)
    (h : ∀ c ∈ l, ¬c = '/') : collapseSlashAux prev l = l := by
  induction l generalizing prev with
  | nil => rfl
  | cons c rest ih =>
    have hc : ¬c = '/' := h c (List.mem_cons_self _ _)
    rw [collapseSlashAux, if_neg (by simp [hc]),
      ih (some c) (fun x hx => h x (List.mem_cons_of_mem c hx))]

theorem collapse_keep_slash (l : List Char) (prev : Option Char)
    (hprev : ¬prev = some '/') (h : '/' ∈ l) :
    '/' ∈ collapseSlashAux prev l := by
  induction l generalizing prev with
  | nil => simp at h
  | cons c rest ih =>
    by_cases hc : c = '/'
    · subst hc
      rw [collapseSlashAux, if_neg (by simp [hprev])]
      exact List.mem_cons_self _ _
    · rw [collapseSlashAux, if_neg (by simp [hc])]
      have hrest : '/' ∈ rest := by
        rcases List.mem_cons.1 h with h' | h'
        · exact absurd h'.symm hc
        · exact h'
      exact List.mem_cons_of_mem c (ih (some c) (by simp [hc]) hrest)

theorem collapse_afterLast (l name : List Char) (prev : Option Char)
    (hns : ∀ c ∈ name, ¬c = '/') :
    afterLastSep '/' (collapseSlashAux prev (l ++ '/' :: name)) = name := by
  induction l generalizing prev with
  | nil =>
    by_cases hp : prev = some '/'
    · rw [List.nil_append, collapseSlashAux, if_pos (by simp [hp]),
        collapse_no_slash_id name prev hns]
      exact afterLastSep_no_sep name hns
    · rw [List.nil_append, collapseSlashAux, if_neg (by simp [hp]),
        collapse_no_slash_id name (some '/') hns]
      exact afterLastSep_sep_cons name hns
  | cons c l' ih =>
    by_cases hc : (c = '/' && prev = some '/') = true
    · rw [List.cons_append, collapseSlashAux, if_pos hc]
      exact ih prev
    · rw [List.cons_append, collapseSlashAux, if_neg hc]
      have hX := ih (some c)
      by_cases hx : '/' ∈ collapseSlashAux (some c) (l' ++ '/' :: name)
      · rw [afterLastSep_cons_of_mem c _ hx]
        exact hX
      · by_cases hcs : c = '/'
        · have hnone : ∀ x ∈ collapseSlashAux (some c) (l' ++ '/' :: name), ¬x = '/' := by
            intro x hxx hxe
            exact hx (hxe ▸ hxx)
          have hval : collapseSlashAux (some c) (l' ++ '/' :: name) = name :=
            (afterLastSep_no_sep _ hnone).symm.trans hX
          subst hcs
          rw [hval]
          exact afterLastSep_sep_cons name hns
        · exact absurd (collapse_keep_slash _ (some c) (by simp [hcs])
            (by exact List.mem_append_right l' (List.mem_cons_self _ _))) hx

theorem splitCharAux_ne_nil (sep : Char) (acc l : List Char) :
    splitCharAux sep acc l ≠ [] := by
  induction l generalizing acc with
  | nil => simp [splitCharAux]
  | cons c rest ih =>
    rw [splitCharAux]
    by_cases hc : c = sep
    · rw [if_pos hc]
      simp
    · rw [if_neg hc]
      exact ih (c :: acc)

theorem getLastD_ne_nil_irrel {α : Type} (l : List α) (h : l ≠ []) (x y : α) :
    l.getLastD x = l.getLastD y := by
  rw [List.getLastD_eq_getLast?, List.getLastD_eq_getLast?]
  cases hl : l.getLast? with
  | none => exact absurd (List.getLast?_eq_none_iff.1 hl) h
  | some a => rfl

theorem splitCharAux_getLast (sep : Char) (l acc : List Char) :
    (splitCharAux sep acc l).getLastD [] =
      if sep ∈ l then afterLastSep sep l else acc.reverse ++ l := by
  induction l generalizing acc with
  | nil => simp [splitCharAux]
  | cons c rest ih =>
    rw [splitCharAux]
    by_cases hc : c = sep
    · rw [if_pos hc]
      have hmem : sep ∈ c :: rest := by rw [hc]; exact List.mem_cons_self _ _
      rw [if_pos hmem]
      have hne := splitCharAux_ne_nil sep [] rest
      rw [List.getLastD_cons, getLastD_ne_nil_irrel _ hne acc.reverse [], ih []]
      by_cases hr : sep ∈ rest
      · rw [if_pos hr]
        subst hc
        rw [afterLastSep_cons_of_mem c rest hr]
      · rw [if_neg hr]
        subst hc
        have hnosep : ∀ x ∈ rest, ¬x = c :=
          fun x hx hxe => hr (by rw [← hxe]; exact hx)
        rw [afterLastSep_sep_cons rest hnosep]
        rfl
    · rw [if_neg hc, ih (c :: acc)]
      have hmem : (sep ∈ c :: rest) ↔ sep ∈ rest := by
        constructor
        · intro h
          rcases List.mem_cons.1 h with h' | h'
          · exact absurd h'.symm hc
          · exact h'
        · exact List.mem_cons_of_mem c
      by_cases hr : sep ∈ rest
      · rw [if_pos hr, if_pos (hmem.2 hr), afterLastSep_cons_of_mem c rest hr]
      · rw [if_neg hr, if_neg (fun h => hr (hmem.1 h)), List.reverse_cons,
          List.append_assoc]
        rfl

theorem lastSegment_data (p : String) :
    lastSegment p = String.mk ((splitCharAux '/' [] p.data).getLastD []) := by
  unfold lastSegment jsSplit
  rw [List.getLastD_eq_getLast?, List.getLastD_eq_getLast?, List.getLast?_map]
  cases hl : (splitCharAux '/' [] p.data).getLast? with
  | none =>
    exact absurd (List.getLast?_eq_none_iff.1 hl) (splitCharAux_ne_nil _ _ _)
  | some a => rfl

theorem lastSegment_archiveTarget (pre nm : String) (_hne : nm.data ≠ [])
    (hns : ∀ c ∈ nm.data, ¬c = '/' ∧ ¬c = '\\') :
    lastSegment (normalizePath (pre ++ "/" ++ nm)) = nm := by
  have hdata : (pre ++ "/" ++ nm).data = pre.data ++ '/' :: nm.data := by
    rw [data_append, data_append]
    rw [show ("/" : String).data = ['/'] from rfl, List.append_assoc]
    rfl
  have hmap : mapSlash ((pre ++ "/" ++ nm).data) =
      mapSlash pre.data ++ '/' :: nm.data := by
    rw [hdata]
    show List.map _ (pre.data ++ '/' :: nm.data) = _
    rw [List.map_append]
    congr 1
    rw [List.map_cons]
    rw [show (if ('/' : Char) = '\\' then '/' else '/') = '/' from by simp]
    congr 1
    exact mapSlash_id_of_no_backslash nm.data (fun c hc => (hns c hc).2)
  have hx : normalizePath (pre ++ "/" ++ nm) =
      String.mk (collapseSlashAux none (mapSlash pre.data ++ '/' :: nm.data)) := by
    unfold normalizePath
    rw [hmap]
  rw [hx, lastSegment_data]
  have hslash : '/' ∈ collapseSlashAux none (mapSlash pre.data ++ '/' :: nm.data) :=
    collapse_keep_slash _ none (by simp)
      (List.mem_append_right _ (List.mem_cons_self _ _))
  rw [show (String.mk (collapseSlashAux none (mapSlash pre.data ++ '/' :: nm.data))).data =
    collapseSlashAux none (mapSlash pre.data ++ '/' :: nm.data) from rfl]
  rw [splitCharAux_getLast, if_pos hslash,
    collapse_afterLast _ _ _ (fun c hc => (hns c hc).1)]

/-! ## Decoded stamps and the targets built from them. -/

/-- The shape of every stamp produced by a successful filename decode:
ten characters, digits around two hyphens. -/
def stampShape (d : String) : Prop :=
  ∃ y1 y2 y3 y4 m1 m2 d1 d2 : Char,
    y1.isDigit = true ∧ y2.isDigit = true ∧ y3.isDigit = true ∧
    y4.isDigit = true ∧ m1.isDigit = true ∧ m2.isDigit = true ∧
    d1.isDigit = true ∧ d2.isDigit = true ∧
    d.data = [y1, y2, y3, y4, '-', m1, m2, '-', d1, d2]

theorem digit_ne {c : Char} (h : c.isDigit = true) : ¬c = '/' ∧ ¬c = '\\' :=
  ⟨fun e => by subst e; exact absurd h (by decide),
   fun e => by subst e; exact absurd h (by decide)⟩

theorem stampShape_chars (d : String) (hs : stampShape d) :
    ∀ c ∈ d.data, ¬c = '/' ∧ ¬c = '\\' := by
  obtain ⟨y1, y2, y3, y4, m1, m2, d1, d2, h1, h2, h3, h4, h5, h6, h7, h8, heq⟩ := hs
  intro c hc
  rw [heq] at hc
  simp only [List.mem_cons, List.not_mem_nil, or_false] at hc
  rcases hc with rfl | rfl | rfl | rfl | rfl | rfl | rfl | rfl | rfl | rfl
  · exact digit_ne h1
  · exact digit_ne h2
  · exact digit_ne h3
  · exact digit_ne h4
  · exact ⟨by decide, by decide⟩
  · exact digit_ne h5
  · exact digit_ne h6
  · exact ⟨by decide, by decide⟩
  · exact digit_ne h7
  · exact digit_ne h8

theorem decode_note_shape {n d : String}
    (h : getDailyNoteDateStamp n = some d) : stampShape d := by
  unfold getDailyNoteDateStamp at h
  split at h
  · rename_i y1 y2 y3 y4 h1 m1 m2 h2 d1 d2 dot mc dc heq
    split at h
    · rename_i hguard
      simp only [Bool.and_eq_true, decide_eq_true_eq, and_assoc] at hguard
      obtain ⟨hy1, hy2, hy3, hy4, hh1, hm1, hm2, hh2, hd1, hd2, hdot, hmc, hdc⟩ := hguard
      have hd := Option.some.inj h
      refine ⟨y1, y2, y3, y4, m1, m2, d1, d2, hy1, hy2, hy3, hy4, hm1, hm2, hd1, hd2, ?_⟩
      rw [← hd, hh1, hh2]
    · exact Option.noConfusion h
  · exact Option.noConfusion h

theorem decode_summary_shape {n d : String}
    (h : getSummaryDateStamp n = some d) : stampShape d := by
  unfold getSummaryDateStamp at h
  split at h
  · rename_i y1 y2 y3 y4 h1 m1 m2 h2 d1 d2 u s1 u2 m3 m4 a1 r1 y5 dot mc dc heq
    split at h
    · rename_i hguard
      simp only [Bool.and_eq_true, decide_eq_true_eq, and_assoc] at hguard
      obtain ⟨hy1, hy2, hy3, hy4, hh1, hm1, hm2, hh2, hd1, hd2, hu, hs1, hu2,
        hm3, hm4, ha1, hr1, hy5, hdot, hmc, hdc⟩ := hguard
      have hd := Option.some.inj h
      refine ⟨y1, y2, y3, y4, m1, m2, d1, d2, hy1, hy2, hy3, hy4, hm1, hm2, hd1, hd2, ?_⟩
      rw [← hd, hh1, hh2]
    · exact Option.noConfusion h
  · exact Option.noConfusion h

theorem decode_note_of_stamp (d : String) (hs : stampShape d) :
    getDailyNoteDateStamp (String.mk (d.data ++ ['.', 'm', 'd'])) = some d := by
  obtain ⟨y1, y2, y3, y4, m1, m2, d1, d2, h1, h2, h3, h4, h5, h6, h7, h8, heq⟩ := hs
  rw [heq]
  show getDailyNoteDateStamp
    (String.mk [y1, y2, y3, y4, '-', m1, m2, '-', d1, d2, '.', 'm', 'd']) = some d
  simp only [getDailyNoteDateStamp, h1, h2, h3, h4, h5, h6, h7, h8]
  rw [if_pos (by simp)]
  rw [← heq]

theorem decode_summary_of_stamp (d : String) (hs : stampShape d) :
    getSummaryDateStamp (String.mk (d.data ++ "_summary.md".data)) = some d := by
  obtain ⟨y1, y2, y3, y4, m1, m2, d1, d2, h1, h2, h3, h4, h5, h6, h7, h8, heq⟩ := hs
  rw [heq]
  show getSummaryDateStamp
    (String.mk [y1, y2, y3, y4, '-', m1, m2, '-', d1, d2,
      '_', 's', 'u', 'm', 'm', 'a', 'r', 'y', '.', 'm', 'd']) = some d
  simp only [getSummaryDateStamp, h1, h2, h3, h4, h5, h6, h7, h8]
  rw [if_pos (by simp)]
  rw [← heq]

theorem decode_note_of_summary_name (d : String) (hs : stampShape d) :
    getDailyNoteDateStamp (String.mk (d.data ++ "_summary.md".data)) = none := by
  obtain ⟨y1, y2, y3, y4, m1, m2, d1, d2, _, _, _, _, _, _, _, _, heq⟩ := hs
  rw [heq]
  rfl

theorem decode_summary_of_note_name (d : String) (hs : stampShape d) :
    getSummaryDateStamp (String.mk (d.data ++ ['.', 'm', 'd'])) = none := by
  obtain ⟨y1, y2, y3, y4, m1, m2, d1, d2, _, _, _, _, _, _, _, _, heq⟩ := hs
  rw [heq]
  rfl

theorem noteArchiveTarget_lastSegment (B d : String) (hs : stampShape d) :
    lastSegment (noteArchiveTarget B d) = String.mk (d.data ++ ['.', 'm', 'd']) := by
  unfold noteArchiveTarget
  have hre : B ++ "/" ++ optStr (getDateParts d).1 ++ "/" ++
      optStr (getDateParts d).2 ++ "/" ++ d ++ ".md" =
      (B ++ "/" ++ optStr (getDateParts d).1 ++ "/" ++ optStr (getDateParts d).2) ++
        "/" ++ String.mk (d.data ++ ['.', 'm', 'd']) := by
    apply String.ext
    simp only [data_append, List.append_assoc]
  rw [hre]
  apply lastSegment_archiveTarget
  · obtain ⟨y1, y2, y3, y4, m1, m2, d1, d2, _, _, _, _, _, _, _, _, heq⟩ := hs
    rw [show (String.mk (d.data ++ ['.', 'm', 'd'])).data =
      d.data ++ ['.', 'm', 'd'] from rfl, heq]
    simp
  · intro c hc
    rw [show (String.mk (d.data ++ ['.', 'm', 'd'])).data =
      d.data ++ ['.', 'm', 'd'] from rfl] at hc
    rcases List.mem_append.1 hc with h' | h'
    · exact stampShape_chars d hs c h'
    · simp only [List.mem_cons, List.not_mem_nil, or_false] at h'
      rcases h' with rfl | rfl | rfl
      · exact ⟨by decide, by decide⟩
      · exact ⟨by decide, by decide⟩
      · exact ⟨by decide, by decide⟩

theorem summaryArchiveTarget_lastSegment (O d : String) (hs : stampShape d) :
    lastSegment (summaryArchiveTarget O d) =
      String.mk (d.data ++ "_summary.md".data) := by
  unfold summaryArchiveTarget
  have hre : O ++ "/" ++ optStr (getDateParts d).1 ++ "/" ++
      optStr (getDateParts d).2 ++ "/" ++ d ++ "_summary.md" =
      (O ++ "/" ++ optStr (getDateParts d).1 ++ "/" ++ optStr (getDateParts d).2) ++
        "/" ++ String.mk (d.data ++ "_summary.md".data) := by
    apply String.ext
    simp only [data_append, List.append_assoc]
  rw [hre]
  apply lastSegment_archiveTarget
  · obtain ⟨y1, y2, y3, y4, m1, m2, d1, d2, _, _, _, _, _, _, _, _, heq⟩ := hs
    rw [show (String.mk (d.data ++ "_summary.md".data)).data =
      d.data ++ "_summary.md".data from rfl, heq]
    simp
  · intro c hc
    rw [show (String.mk (d.data ++ "_summary.md".data)).data =
      d.data ++ "_summary.md".data from rfl] at hc
    rcases List.mem_append.1 hc with h' | h'
    · exact stampShape_chars d hs c h'
    · have hlit : ("_summary.md" : String).data =
        ['_', 's', 'u', 'm', 'm', 'a', 'r', 'y', '.', 'm', 'd'] := rfl
      rw [hlit] at h'
      simp only [List.mem_cons, List.not_mem_nil, or_false] at h'
      rcases h' with rfl | rfl | rfl | rfl | rfl | rfl | rfl | rfl | rfl | rfl | rfl <;>
        exact ⟨by decide, by decide⟩

/-! ## Skip lemmas: re-encountering an archive target never renames. -/

theorem noteRenameTarget_self (B today d : String) (hs : stampShape d) :
    noteRenameTarget B today (noteArchiveTarget B d) = none := by
  unfold noteRenameTarget
  rw [noteArchiveTarget_lastSegment B d hs, decode_note_of_stamp d hs]
  by_cases ht : d = today
  · simp [ht]
  · simp [ht]

theorem noteRenameTarget_sumTarget (B today O d : String) (hs : stampShape d) :
    noteRenameTarget B today (summaryArchiveTarget O d) = none := by
  unfold noteRenameTarget
  rw [summaryArchiveTarget_lastSegment O d hs, decode_note_of_summary_name d hs]

theorem summaryRenameTarget_self (O ys d : String) (hs : stampShape d) :
    summaryRenameTarget O ys (summaryArchiveTarget O d) = none := by
  unfold summaryRenameTarget
  rw [summaryArchiveTarget_lastSegment O d hs, decode_summary_of_stamp d hs]
  by_cases hb : isDateStampBefore d ys
  · simp [hb]
  · simp [hb]

theorem summaryRenameTarget_noteTarget (O ys B d : String) (hs : stampShape d) :
    summaryRenameTarget O ys (noteArchiveTarget B d) = none := by
  unfold summaryRenameTarget
  rw [noteArchiveTarget_lastSegment B d hs, decode_summary_of_note_name d hs]

/-! ## Inversion of the rename conditions. -/

theorem noteRenameTarget_some {B today p t : String}
    (h : noteRenameTarget B today p = some t) :
    ∃ d, getDailyNoteDateStamp (lastSegment p) = some d ∧ ¬d = today ∧
      ¬p = noteArchiveTarget B d ∧ t = noteArchiveTarget B d := by
  unfold noteRenameTarget at h
  split at h
  · exact Option.noConfusion h
  · rename_i d hd
    split at h
    · exact Option.noConfusion h
    · rename_i ht
      split at h
      · exact Option.noConfusion h
      · rename_i hp
        exact ⟨d, hd, ht, hp, (Option.some.inj h).symm⟩

theorem summaryRenameTarget_some {O ys p t : String}
    (h : summaryRenameTarget O ys p = some t) :
    ∃ d, getSummaryDateStamp (lastSegment p) = some d ∧
      isDateStampBefore d ys = true ∧
      ¬p = summaryArchiveTarget O d ∧ t = summaryArchiveTarget O d := by
  unfold summaryRenameTarget at h
  split at h
  · exact Option.noConfusion h
  · rename_i d hd
    split at h
    · exact Option.noConfusion h
    · rename_i hb
      split at h
      · exact Option.noConfusion h
      · rename_i hp
        refine ⟨d, hd, ?_, hp, (Option.some.inj h).symm⟩
        revert hb
        cases isDateStampBefore d ys <;> simp

/-! ## Immediate children, parents and well-formed vaults. -/

theorem startsWithL_iff (pre l : List Char) :
    startsWithL pre l = true ↔ ∃ rest, l = pre ++ rest := by
  induction pre generalizing l with
  | nil => simp [startsWithL]
  | cons p ps ih =>
    cases l with
    | nil =>
      simp only [startsWithL]
      constructor
      · intro h; exact Bool.noConfusion h
      · rintro ⟨rest, hrest⟩; exact List.noConfusion hrest
    | cons c cs =>
      rw [startsWithL, Bool.and_eq_true]
      constructor
      · rintro ⟨h1, h2⟩
        have hpc : p = c := by simpa using h1
        rcases (ih cs).1 h2 with ⟨rest, hrest⟩
        exact ⟨rest, by rw [List.cons_append, hpc, hrest]⟩
      · rintro ⟨rest, hrest⟩
        rw [List.cons_append] at hrest
        have h1 : c = p := (List.cons.inj hrest).1
        have h2 : cs = ps ++ rest := (List.cons.inj hrest).2
        exact ⟨by simp [h1], (ih cs).2 ⟨rest, h2⟩⟩

theorem isImmediateChild_spec (F p : String) (h : isImmediateChild F p = true) :
    ∃ rest, p.data = F.data ++ '/' :: rest ∧ ∀ c ∈ rest, ¬c = '/' := by
  unfold isImmediateChild at h
  rw [Bool.and_eq_true] at h
  obtain ⟨h1, h2⟩ := h
  rcases (startsWithL_iff _ _).1 h1 with ⟨rest, hrest⟩
  refine ⟨rest, by rw [hrest, List.append_assoc]; rfl, ?_⟩
  intro c hc hcs
  have hdrop : p.data.drop (F.data.length + 1) = rest := by
    rw [hrest, show F.data.length + 1 = (F.data ++ ['/']).length from by simp,
      List.drop_left]
  rw [hdrop] at h2
  rw [List.all_eq_true] at h2
  have := h2 c hc
  rw [hcs] at this
  simp at this

theorem isImmediateChild_parent (F p : String) (h : isImmediateChild F p = true) :
    '/' ∈ p.data ∧ parentDir p = F := by
  rcases isImmediateChild_spec F p h with ⟨rest, hdata, hrest⟩
  constructor
  · rw [hdata]
    exact List.mem_append_right _ (List.mem_cons_self _ _)
  · unfold parentDir
    rw [hdata, List.reverse_append, List.reverse_cons, List.append_assoc]
    rw [dropWhile_append_all rest.reverse (['/'] ++ F.data.reverse) (by
      intro x hx
      simp only [decide_eq_true_eq]
      intro hxe
      exact hrest x (List.mem_reverse.1 hx) hxe)]
    rw [show ['/'] ++ F.data.reverse = '/' :: F.data.reverse from rfl]
    rw [List.dropWhile_cons, if_neg (by simp)]
    rw [List.drop_one, List.tail_cons, List.reverse_reverse]

theorem vaultWF_spec (v : Vault) (hwf : vaultWF v = true) (p : String)
    (hp : p ∈ v.files) (F : String) (hic : isImmediateChild F p = true) :
    vexists v F = true := by
  obtain ⟨hslash, hparent⟩ := isImmediateChild_parent F p hic
  unfold vaultWF at hwf
  rw [List.all_eq_true] at hwf
  have := hwf p hp
  rw [Bool.or_eq_true] at this
  rcases this with h | h
  · have h' : (p.data.any fun c => decide (c = '/')) = false := by
      revert h
      cases p.data.any fun c => decide (c = '/') <;> simp
    have htrue : (p.data.any fun c => decide (c = '/')) = true :=
      List.any_eq_true.2 ⟨'/', hslash, by simp⟩
    rw [htrue] at h'
    exact Bool.noConfusion h'
  · rw [← hparent]
    exact h

theorem mem_listFiles {v : Vault} {F p : String} :
    p ∈ listFiles v F ↔ p ∈ v.files ∧ isImmediateChild F p = true := by
  unfold listFiles
  rw [List.mem_filter]

/-! ## Characterizations of the two Archivist passes. -/

theorem sortDailyNotes_guard (s : Settings) (today : String) (v : Vault)
    (h : (normalizePath s.dailyNotesFolder = "" ∨ normalizePath s.dailyNotesFolder = ".") ∨
      vexists v (normalizePath s.dailyNotesFolder) = false) :
    sortDailyNotes s today v = (v, []) := by
  unfold sortDailyNotes
  rcases h with (h | h) | h
  · simp [h]
  · simp [h]
  · simp [h]

theorem sortDailyNotes_fold (s : Settings) (today : String) (v : Vault)
    (h1 : ¬(normalizePath s.dailyNotesFolder = "" ∨ normalizePath s.dailyNotesFolder = "."))
    (h2 : vexists v (normalizePath s.dailyNotesFolder) = true) :
    sortDailyNotes s today v =
      (listFiles v (normalizePath s.dailyNotesFolder)).foldl
        (archivePassStep
          (noteRenameTarget (normalizePath s.dailyNotesFolder) today)
          (noteRenameFolderOf (normalizePath s.dailyNotesFolder))) (v, []) := by
  rw [not_or] at h1
  unfold sortDailyNotes
  simp [h1.1, h1.2, h2, sortDailyNotesStep_eq]

theorem sortSummaries_guard (s : Settings) (ys : String) (v : Vault)
    (h : (normalizePath s.outputFolder = "" ∨ normalizePath s.outputFolder = ".") ∨
      vexists v (normalizePath s.outputFolder) = false) :
    sortSummaries s ys v = (v, []) := by
  unfold sortSummaries
  rcases h with (h | h) | h
  · simp [h]
  · simp [h]
  · simp [h]

theorem sortSummaries_fold (s : Settings) (ys : String) (v : Vault)
    (h1 : ¬(normalizePath s.outputFolder = "" ∨ normalizePath s.outputFolder = "."))
    (h2 : vexists v (normalizePath s.outputFolder) = true) :
    sortSummaries s ys v =
      (listFiles v (normalizePath s.outputFolder)).foldl
        (archivePassStep
          (summaryRenameTarget (normalizePath s.outputFolder) ys)
          (summaryRenameFolderOf (normalizePath s.outputFolder))) (v, []) := by
  rw [not_or] at h1
  unfold sortSummaries
  simp [h1.1, h1.2, h2, sortSummariesStep_eq]

theorem sortDailyNotes_mem (s : Settings) (today : String) (v : Vault) (q : String)
    (h : q ∈ (sortDailyNotes s today v).1.files) :
    q ∈ v.files ∨ ∃ d, stampShape d ∧
      q = noteArchiveTarget (normalizePath s.dailyNotesFolder) d := by
  by_cases hg1 : normalizePath s.dailyNotesFolder = "" ∨ normalizePath s.dailyNotesFolder = "."
  · rw [sortDailyNotes_guard s today v (Or.inl hg1)] at h
    exact Or.inl h
  · by_cases hg2 : vexists v (normalizePath s.dailyNotesFolder) = true
    · rw [sortDailyNotes_fold s today v hg1 hg2] at h
      rcases afold_mem_files _ _ _ _ q h with h' | ⟨p, _, hc⟩
      · exact Or.inl h'
      · obtain ⟨d, hd, _, _, ht⟩ := noteRenameTarget_some hc
        exact Or.inr ⟨d, decode_note_shape hd, ht⟩
    · have : vexists v (normalizePath s.dailyNotesFolder) = false := by
        revert hg2
        cases vexists v (normalizePath s.dailyNotesFolder) <;> simp
      rw [sortDailyNotes_guard s today v (Or.inr this)] at h
      exact Or.inl h

theorem sortSummaries_mem (s : Settings) (ys : String) (v : Vault) (q : String)
    (h : q ∈ (sortSummaries s ys v).1.files) :
    q ∈ v.files ∨ ∃ d, stampShape d ∧
      q = summaryArchiveTarget (normalizePath s.outputFolder) d := by
  by_cases hg1 : normalizePath s.outputFolder = "" ∨ normalizePath s.outputFolder = "."
  · rw [sortSummaries_guard s ys v (Or.inl hg1)] at h
    exact Or.inl h
  · by_cases hg2 : vexists v (normalizePath s.outputFolder) = true
    · rw [sortSummaries_fold s ys v hg1 hg2] at h
      rcases afold_mem_files _ _ _ _ q h with h' | ⟨p, _, hc⟩
      · exact Or.inl h'
      · obtain ⟨d, hd, _, _, ht⟩ := summaryRenameTarget_some hc
        exact Or.inr ⟨d, decode_summary_shape hd, ht⟩
    · have : vexists v (normalizePath s.outputFolder) = false := by
        revert hg2
        cases vexists v (normalizePath s.outputFolder) <;> simp
      rw [sortSummaries_guard s ys v (Or.inr this)] at h
      exact Or.inl h

theorem sortDailyNotes_renames (s : Settings) (today : String) (v : Vault) :
    ∀ pr ∈ (sortDailyNotes s today v).2,
      noteRenameTarget (normalizePath s.dailyNotesFolder) today pr.1 = some pr.2 ∧
      pr.1 ∈ listFiles v (normalizePath s.dailyNotesFolder) := by
  intro pr hpr
  by_cases hg1 : normalizePath s.dailyNotesFolder = "" ∨ normalizePath s.dailyNotesFolder = "."
  · rw [sortDailyNotes_guard s today v (Or.inl hg1)] at hpr
    simp at hpr
  · by_cases hg2 : vexists v (normalizePath s.dailyNotesFolder) = true
    · rw [sortDailyNotes_fold s today v hg1 hg2] at hpr
      rcases afold_renames _ _ _ _ pr hpr with h | ⟨h1, h2⟩
      · simp at h
      · exact ⟨h2, h1⟩
    · have : vexists v (normalizePath s.dailyNotesFolder) = false := by
        revert hg2
        cases vexists v (normalizePath s.dailyNotesFolder) <;> simp
      rw [sortDailyNotes_guard s today v (Or.inr this)] at hpr
      simp at hpr

theorem sortSummaries_renames (s : Settings) (ys : String) (v : Vault) :
    ∀ pr ∈ (sortSummaries s ys v).2,
      summaryRenameTarget (normalizePath s.outputFolder) ys pr.1 = some pr.2 ∧
      pr.1 ∈ listFiles v (normalizePath s.outputFolder) := by
  intro pr hpr
  by_cases hg1 : normalizePath s.outputFolder = "" ∨ normalizePath s.outputFolder = "."
  · rw [sortSummaries_guard s ys v (Or.inl hg1)] at hpr
    simp at hpr
  · by_cases hg2 : vexists v (normalizePath s.outputFolder) = true
    · rw [sortSummaries_fold s ys v hg1 hg2] at hpr
      rcases afold_renames _ _ _ _ pr hpr with h | ⟨h1, h2⟩
      · simp at h
      · exact ⟨h2, h1⟩
    · have : vexists v (normalizePath s.outputFolder) = false := by
        revert hg2
        cases vexists v (normalizePath s.outputFolder) <;> simp
      rw [sortSummaries_guard s ys v (Or.inr this)] at hpr
      simp at hpr

/-! ## Second-run idempotence of the Archivist. -/

theorem note_pass_clean_after (s : Settings) (today ys : String) (v : Vault)
    (hwf : vaultWF v = true) :
    sortDailyNotes s today (sortDailyNotesAndSummaries s today ys v).1 =
      ((sortDailyNotesAndSummaries s today ys v).1, []) := by
  have hv2 : (sortDailyNotesAndSummaries s today ys v).1 =
      (sortSummaries s ys (sortDailyNotes s today v).1).1 := rfl
  by_cases hg1 : normalizePath s.dailyNotesFolder = "" ∨ normalizePath s.dailyNotesFolder = "."
  · exact sortDailyNotes_guard _ _ _ (Or.inl hg1)
  · by_cases hg2 : vexists (sortDailyNotesAndSummaries s today ys v).1
      (normalizePath s.dailyNotesFolder) = true
    · rw [sortDailyNotes_fold _ _ _ hg1 hg2]
      apply afold_skip
      intro p hp
      obtain ⟨hpv2, himm⟩ := mem_listFiles.1 hp
      by_contra hcp
      obtain ⟨t, ht⟩ : ∃ t, noteRenameTarget (normalizePath s.dailyNotesFolder)
          today p = some t := by
        cases hc : noteRenameTarget (normalizePath s.dailyNotesFolder) today p with
        | none => exact absurd hc hcp
        | some t => exact ⟨t, rfl⟩
      obtain ⟨d, hdec, hdt, hpt, htt⟩ := noteRenameTarget_some ht
      rw [hv2] at hpv2
      rcases sortSummaries_mem s ys _ p hpv2 with hp1 | ⟨d', hs', heq'⟩
      · rcases sortDailyNotes_mem s today v p hp1 with hp0 | ⟨d', hs', heq'⟩
        · have hex : vexists v (normalizePath s.dailyNotesFolder) = true :=
            vaultWF_spec v hwf p hp0 _ himm
          have hrm : p ∉ (sortDailyNotes s today v).1.files := by
            rw [sortDailyNotes_fold s today v hg1 hex]
            apply afold_remove _ _ _ _ p t ?_ ht ?_ ?_
            · intro p' _ t' hc' hteq
              obtain ⟨d'', hdec'', _, _, ht''⟩ := noteRenameTarget_some hc'
              have hp_eq : p = noteArchiveTarget (normalizePath s.dailyNotesFolder) d'' := by
                rw [← hteq, ht'']
              have hnone : noteRenameTarget (normalizePath s.dailyNotesFolder) today p = none := by
                rw [hp_eq]
                exact noteRenameTarget_self _ today d'' (decode_note_shape hdec'')
              rw [hnone] at ht
              exact Option.noConfusion ht
            · intro he
              exact hpt (he ▸ htt)
            · exact mem_listFiles.2 ⟨hp0, himm⟩
          have hnot2 : p ∉ (sortSummaries s ys (sortDailyNotes s today v).1).1.files := by
            by_cases hsg1 : normalizePath s.outputFolder = "" ∨ normalizePath s.outputFolder = "."
            · rw [sortSummaries_guard _ _ _ (Or.inl hsg1)]
              exact hrm
            · by_cases hsg2 : vexists (sortDailyNotes s today v).1
                (normalizePath s.outputFolder) = true
              · rw [sortSummaries_fold _ _ _ hsg1 hsg2]
                refine afold_noadd _ _ _ _ p ?_ hrm
                intro p' _ t' hc' hteq
                obtain ⟨d'', hdec'', _, _, ht''⟩ := summaryRenameTarget_some hc'
                have hp_eq : p = summaryArchiveTarget (normalizePath s.outputFolder) d'' := by
                  rw [← hteq, ht'']
                have hnone : noteRenameTarget (normalizePath s.dailyNotesFolder) today p = none := by
                  rw [hp_eq]
                  exact noteRenameTarget_sumTarget _ today _ d'' (decode_summary_shape hdec'')
                rw [hnone] at ht
                exact Option.noConfusion ht
              · have hfalse : vexists (sortDailyNotes s today v).1
                    (normalizePath s.outputFolder) = false := by
                  revert hsg2
                  cases vexists (sortDailyNotes s today v).1 (normalizePath s.outputFolder) <;> simp
                rw [sortSummaries_guard _ _ _ (Or.inr hfalse)]
                exact hrm
          exact hnot2 hpv2
        · have hnone : noteRenameTarget (normalizePath s.dailyNotesFolder) today p = none := by
            rw [heq']
            exact noteRenameTarget_self _ today d' hs'
          rw [hnone] at ht
          exact Option.noConfusion ht
      · have hnone : noteRenameTarget (normalizePath s.dailyNotesFolder) today p = none := by
          rw [heq']
          exact noteRenameTarget_sumTarget _ today _ d' hs'
        rw [hnone] at ht
        exact Option.noConfusion ht
    · have hfalse : vexists (sortDailyNotesAndSummaries s today ys v).1
          (normalizePath s.dailyNotesFolder) = false := by
        revert hg2
        cases vexists (sortDailyNotesAndSummaries s today ys v).1
          (normalizePath s.dailyNotesFolder) <;> simp
      exact sortDailyNotes_guard _ _ _ (Or.inr hfalse)

theorem summary_pass_clean_after (s : Settings) (today ys : String) (v : Vault) :
    sortSummaries s ys (sortDailyNotesAndSummaries s today ys v).1 =
      ((sortDailyNotesAndSummaries s today ys v).1, []) := by
  have hv2 : (sortDailyNotesAndSummaries s today ys v).1 =
      (sortSummaries s ys (sortDailyNotes s today v).1).1 := rfl
  by_cases hg1 : normalizePath s.outputFolder = "" ∨ normalizePath s.outputFolder = "."
  · exact sortSummaries_guard _ _ _ (Or.inl hg1)
  · by_cases hg2 : vexists (sortDailyNotesAndSummaries s today ys v).1
      (normalizePath s.outputFolder) = true
    · rw [sortSummaries_fold _ _ _ hg1 hg2]
      apply afold_skip
      intro q hq
      obtain ⟨hqv2, himm⟩ := mem_listFiles.1 hq
      by_contra hcq
      obtain ⟨t, ht⟩ : ∃ t, summaryRenameTarget (normalizePath s.outputFolder)
          ys q = some t := by
        cases hc : summaryRenameTarget (normalizePath s.outputFolder) ys q with
        | none => exact absurd hc hcq
        | some t => exact ⟨t, rfl⟩
      obtain ⟨d, hdec, hbef, hqt, htt⟩ := summaryRenameTarget_some ht
      rw [hv2] at hqv2
      rcases sortSummaries_mem s ys _ q hqv2 with hq1 | ⟨d', hs', heq'⟩
      · by_cases hsg2 : vexists (sortDailyNotes s today v).1
            (normalizePath s.outputFolder) = true
        · have hrm : q ∉ (sortSummaries s ys (sortDailyNotes s today v).1).1.files := by
            rw [sortSummaries_fold _ _ _ hg1 hsg2]
            apply afold_remove _ _ _ _ q t ?_ ht ?_ ?_
            · intro p' _ t' hc' hteq
              obtain ⟨d'', hdec'', _, _, ht''⟩ := summaryRenameTarget_some hc'
              have hq_eq : q = summaryArchiveTarget (normalizePath s.outputFolder) d'' := by
                rw [← hteq, ht'']
              have hnone : summaryRenameTarget (normalizePath s.outputFolder) ys q = none := by
                rw [hq_eq]
                exact summaryRenameTarget_self _ ys d'' (decode_summary_shape hdec'')
              rw [hnone] at ht
              exact Option.noConfusion ht
            · intro he
              exact hqt (he ▸ htt)
            · exact mem_listFiles.2 ⟨hq1, himm⟩
          exact hrm hqv2
        · have hfalse : vexists (sortDailyNotes s today v).1
              (normalizePath s.outputFolder) = false := by
            revert hsg2
            cases vexists (sortDailyNotes s today v).1 (normalizePath s.outputFolder) <;> simp
          have hid : sortSummaries s ys (sortDailyNotes s today v).1 =
              ((sortDailyNotes s today v).1, []) :=
            sortSummaries_guard _ _ _ (Or.inr hfalse)
          rw [hv2, hid] at hg2
          rw [hg2] at hfalse
          exact Bool.noConfusion hfalse
      · have hnone : summaryRenameTarget (normalizePath s.outputFolder) ys q = none := by
          rw [heq']
          exact summaryRenameTarget_self _ ys d' hs'
        rw [hnone] at ht
        exact Option.noConfusion ht
    · have hfalse : vexists (sortDailyNotesAndSummaries s today ys v).1
          (normalizePath s.outputFolder) = false := by
        revert hg2
        cases vexists (sortDailyNotesAndSummaries s today ys v).1
          (normalizePath s.outputFolder) <;> simp
      exact sortSummaries_guard _ _ _ (Or.inr hfalse)

/-- Claim C8: over any well-formed vault (files only live under existing
folders, as on a real filesystem), the Archivist never renames a file
whose computed target equals its current path, the note pass never
relocates a file whose decoded day key is today's, and a second
back-to-back run performs no renames at all. -/
theorem spec_c8 (s : Settings) (today ys : String) (v : Vault)
    (hwf : vaultWF v = true) :
    (∀ pr ∈ (sortDailyNotesAndSummaries s today ys v).2, ¬pr.1 = pr.2) ∧
    (∀ pr ∈ (sortDailyNotes s today v).2,
      ¬getDailyNoteDateStamp (lastSegment pr.1) = some today) ∧
    (sortDailyNotesAndSummaries s today ys
      (sortDailyNotesAndSummaries s today ys v).1).2 = [] := by
  refine ⟨?_, ?_, ?_⟩
  · intro pr hpr
    have hmem : pr ∈ (sortDailyNotes s today v).2 ++
        (sortSummaries s ys (sortDailyNotes s today v).1).2 := hpr
    rcases List.mem_append.1 hmem with h | h
    · obtain ⟨hc, _⟩ := sortDailyNotes_renames s today v pr h
      obtain ⟨d, _, _, hpt, htt⟩ := noteRenameTarget_some hc
      intro he
      exact hpt (by rw [he, htt])
    · obtain ⟨hc, _⟩ := sortSummaries_renames s ys _ pr h
      obtain ⟨d, _, _, hpt, htt⟩ := summaryRenameTarget_some hc
      intro he
      exact hpt (by rw [he, htt])
  · intro pr hpr
    obtain ⟨hc, _⟩ := sortDailyNotes_renames s today v pr hpr
    obtain ⟨d, hdec, hdt, _, _⟩ := noteRenameTarget_some hc
    intro h
    rw [hdec] at h
    exact hdt (Option.some.inj h)
  · have hA := note_pass_clean_after s today ys v hwf
    have hB := summary_pass_clean_after s today ys v
    show (sortDailyNotes s today (sortDailyNotesAndSummaries s today ys v).1).2 ++
      (sortSummaries s ys
        (sortDailyNotes s today (sortDailyNotesAndSummaries s today ys v).1).1).2 = []
    simp [hA, hB]

theorem spec_c8_witness :
    vaultWF ⟨["Daily/2026-01-05.md", "Sums/2026-01-05_summary.md"],
      ["Daily", "Sums"]⟩ = true ∧
    (sortDailyNotesAndSummaries
      ⟨"Daily", "Sums", "https://e", "", "m", "X", 60, true, ""⟩
      "2026-02-10" "2026-02-09"
      (sortDailyNotesAndSummaries
        ⟨"Daily", "Sums", "https://e", "", "m", "X", 60, true, ""⟩
        "2026-02-10" "2026-02-09"
        ⟨["Daily/2026-01-05.md", "Sums/2026-01-05_summary.md"],
          ["Daily", "Sums"]⟩).1).2 = [] :=
  ⟨by decide,
    (spec_c8 ⟨"Daily", "Sums", "https://e", "", "m", "X", 60, true, ""⟩
      "2026-02-10" "2026-02-09"
      ⟨["Daily/2026-01-05.md", "Sums/2026-01-05_summary.md"],
        ["Daily", "Sums"]⟩ (by decide)).2.2⟩

end Digest
